import Mathlib

/-!
# libtorrent disk job fence (`src/libtorrent/src/disk_job_fence.cpp`)

A shallow embedding of `disk_job_fence` and of the part of `mmap_disk_job` the
fence reads and writes, built with assertions enabled (`TORRENT_USE_ASSERTS`):
a failing `TORRENT_ASSERT` aborts the call, which is modelled by
`Except.error n`, where `n` is the source line of the assertion.

* Job pointers are natural numbers; the job objects live in the map `job`.
* The intrusive `tailqueue` is a list of job pointers, head first.
* `m_has_fence` and `m_outstanding_jobs` are mathematical integers: the
  counters stay far below the machine range, so no width is modelled.
* `admitted` and `queued` are history variables: the code never reads them.
* The mutex is not modelled: every member function runs under the lock, so a
  call is one atomic step.
-/

namespace libtorrent

/-- The fields of `mmap_disk_job` used by the fence: the two bits of `flags`
and the debug-only member `blocked`. -/
structure mmap_disk_job where
  in_progress : Bool
  fence : Bool
  blocked : Bool
  deriving DecidableEq, Repr

/-- One record per execution of `flags |= in_progress; ++m_outstanding_jobs`
(history variable, never read by the code). -/
structure admission where
  /-- the job that was marked in progress -/
  who : Nat
  /-- its fence bit at that moment -/
  is_fence : Bool
  /-- value of `m_outstanding_jobs` right before the increment -/
  outstanding_before : Int
  /-- value of `m_outstanding_jobs` right after the increment -/
  outstanding_after : Int
  /-- whether the job was taken out of `m_blocked_jobs` -/
  from_queue : Bool
  deriving DecidableEq, Repr

/-- The members of `disk_job_fence`, the job objects its calls touch, the
`counters::blocked_disk_jobs` cell of the `counters` argument, and two history
variables (`admitted`, `queued`). -/
structure disk_job_fence where
  m_has_fence : Int
  m_blocked_jobs : List Nat
  m_outstanding_jobs : Int
  job : Nat → mmap_disk_job
  blocked_disk_jobs : Int
  /-- history: every admission, oldest first -/
  admitted : List admission
  /-- history: every `m_blocked_jobs.push_back`, oldest first -/
  queued : List Nat

/-- The two enumerators `raise_fence` returns. -/
inductive fence_result where
  | fence_post_fence
  | fence_post_none
  deriving DecidableEq, Repr

namespace disk_job_fence

/-- The statement `j->flags |= mmap_disk_job::fence`. -/
def set_fence (s : disk_job_fence) (j : Nat) : disk_job_fence :=
  { s with job := Function.update s.job j { s.job j with fence := true } }

/-- The statement `j->blocked = b`. -/
def set_blocked (s : disk_job_fence) (j : Nat) (b : Bool) : disk_job_fence :=
  { s with job := Function.update s.job j { s.job j with blocked := b } }

/-- The statement pair `j->flags |= mmap_disk_job::in_progress;
++m_outstanding_jobs;`, recorded in `admitted`. -/
def mark_in_progress (s : disk_job_fence) (j : Nat) (from_queue : Bool) :
    disk_job_fence :=
  { s with
    job := Function.update s.job j { s.job j with in_progress := true }
    m_outstanding_jobs := s.m_outstanding_jobs + 1
    admitted := s.admitted ++
      [⟨j, (s.job j).fence, s.m_outstanding_jobs, s.m_outstanding_jobs + 1, from_queue⟩] }

/-- Admission of a job popped from the blocked queue (lines 62-69, 79-87 and
106-113): assert it is not in progress, mark it, assert it was blocked, clear
`blocked`. `l1` and `l2` are the lines of the two assertions. -/
def admit_blocked (s : disk_job_fence) (bj : Nat) (l1 l2 : Nat) :
    Except Nat disk_job_fence :=
  if (s.job bj).in_progress then .error l1
  else if !(s.job bj).blocked then .error l2
  else .ok ((s.mark_in_progress bj true).set_blocked bj false)

/-- The `while (!m_blocked_jobs.empty())` loop of `job_complete` (lines
49-90). The first argument is the content of `m_blocked_jobs` when the loop
condition is tested; `jobs` is the out-queue and `ret` the running count. -/
def drain : List Nat → disk_job_fence → List Nat → Int →
    Except Nat (Int × List Nat × disk_job_fence)
  | [], s, jobs, ret => .ok (ret, jobs, { s with m_blocked_jobs := [] })
  | bj :: q, s, jobs, ret =>
    if (s.job bj).fence then
      if s.m_outstanding_jobs = 0 ∧ jobs = [] then
        match admit_blocked { s with m_blocked_jobs := q } bj 62 67 with
        | .error l => .error l
        | .ok s1 => .ok (ret + 1, jobs ++ [bj], s1)
      else
        .ok (ret, jobs, { s with m_blocked_jobs := bj :: q })
    else
      match admit_blocked { s with m_blocked_jobs := q } bj 79 85 with
      | .error l => .error l
      | .ok s1 => drain q s1 (jobs ++ [bj]) (ret + 1)

/-- `int disk_job_fence::job_complete(mmap_disk_job* j, tailqueue& jobs)`:
the result is the returned count, the out-queue and the new state. -/
def job_complete (s : disk_job_fence) (j : Nat) (jobs : List Nat) :
    Except Nat (Int × List Nat × disk_job_fence) :=
  if !(s.job j).in_progress then .error 32
  else
    let s1 : disk_job_fence :=
      { s with job := Function.update s.job j { s.job j with in_progress := false } }
    if ¬ (0 < s1.m_outstanding_jobs) then .error 35
    else
      let s2 : disk_job_fence :=
        { s1 with m_outstanding_jobs := s1.m_outstanding_jobs - 1 }
      if (s2.job j).fence then
        if s2.m_outstanding_jobs ≠ 0 then .error 41
        else
          let s3 : disk_job_fence := { s2 with m_has_fence := s2.m_has_fence - 1 }
          drain s3.m_blocked_jobs s3 jobs 0
      else if 0 < s2.m_outstanding_jobs ∨ s2.m_has_fence = 0 then
        .ok (0, jobs, s2)
      else
        match s2.m_blocked_jobs with
        | [] => .error 100
        | bj :: q =>
          if !(s2.job bj).fence then .error 104
          else
            match admit_blocked { s2 with m_blocked_jobs := q } bj 106 111 with
            | .error l => .error l
            | .ok s3 => .ok (1, bj :: jobs, s3)

/-- `bool disk_job_fence::is_blocked(mmap_disk_job* j)`. -/
def is_blocked (s : disk_job_fence) (j : Nat) : Except Nat (Bool × disk_job_fence) :=
  if s.m_has_fence = 0 then
    if (s.job j).in_progress then .error 130
    else .ok (false, s.mark_in_progress j false)
  else
    let s1 : disk_job_fence :=
      { s with m_blocked_jobs := s.m_blocked_jobs ++ [j], queued := s.queued ++ [j] }
    if (s1.job j).blocked then .error 139
    else .ok (true, s1.set_blocked j true)

/-- `bool disk_job_fence::has_fence() const`. -/
def has_fence (s : disk_job_fence) : Bool := decide (s.m_has_fence ≠ 0)

/-- `int disk_job_fence::num_blocked() const`. -/
def num_blocked (s : disk_job_fence) : Int := s.m_blocked_jobs.length

/-- `int disk_job_fence::raise_fence(mmap_disk_job* j, counters& cnt)`. -/
def raise_fence (s : disk_job_fence) (j : Nat) :
    Except Nat (fence_result × disk_job_fence) :=
  if (s.job j).in_progress then .error 161
  else if (s.job j).fence then .error 162
  else
    let s1 := s.set_fence j
    if s1.m_has_fence = 0 ∧ s1.m_outstanding_jobs = 0 then
      let s2 : disk_job_fence := { s1 with m_has_fence := s1.m_has_fence + 1 }
      .ok (.fence_post_fence, s2.mark_in_progress j false)
    else
      let s2 : disk_job_fence := { s1 with m_has_fence := s1.m_has_fence + 1 }
      if (s2.job j).blocked then .error 187
      else
        let s3 := s2.set_blocked j true
        .ok (.fence_post_none,
          { s3 with
            m_blocked_jobs := s3.m_blocked_jobs ++ [j]
            queued := s3.queued ++ [j]
            blocked_disk_jobs := s3.blocked_disk_jobs + 1 })

end disk_job_fence

/-- A call made on the fence by the dispatcher. -/
inductive fence_call where
  | raise_fence (j : Nat)
  | is_blocked (j : Nat)
  | job_complete (j : Nat) (jobs : List Nat)
  deriving DecidableEq, Repr

namespace disk_job_fence

/-- One call, keeping only the new state. -/
def step (s : disk_job_fence) : fence_call → Except Nat disk_job_fence
  | .raise_fence j => (s.raise_fence j).map Prod.snd
  | .is_blocked j => (s.is_blocked j).map Prod.snd
  | .job_complete j jobs => (s.job_complete j jobs).map (fun r => r.2.2)

/-- The preconditions on the argument job as the callers are required to
respect them: `raise_fence` and `is_blocked` take a job that is neither in
progress nor a fence job, `job_complete` takes a job that is in progress. -/
def call_pre (s : disk_job_fence) : fence_call → Prop
  | .raise_fence j => (s.job j).in_progress = false ∧ (s.job j).fence = false
  | .is_blocked j => (s.job j).in_progress = false ∧ (s.job j).fence = false
  | .job_complete j _ => (s.job j).in_progress = true

/-- A freshly constructed fence: both counters zero, empty blocked queue, and
no job object carries a mark that only the fence sets (`in_progress`,
`blocked`). The fence bits and the statistics counter are arbitrary. -/
def initial (s : disk_job_fence) : Prop :=
  s.m_has_fence = 0 ∧ s.m_outstanding_jobs = 0 ∧ s.m_blocked_jobs = [] ∧
  (∀ j, (s.job j).in_progress = false ∧ (s.job j).blocked = false) ∧
  s.admitted = [] ∧ s.queued = []

/-- States reached from an initial state by calls that respect `call_pre`
and return, that is, at which no assertion fires. (`job_complete` on a job in
progress always returns from such a state: `inv_job_complete`.) -/
inductive reachable : disk_job_fence → Prop
  | init (s : disk_job_fence) : initial s → reachable s
  | call (s : disk_job_fence) (c : fence_call) (t : disk_job_fence) :
      reachable s → call_pre s c → step s c = .ok t → reachable t

/-- The idle fence over jobs without any mark. -/
def idle : disk_job_fence :=
  { m_has_fence := 0, m_blocked_jobs := [], m_outstanding_jobs := 0,
    job := fun _ => ⟨false, false, false⟩, blocked_disk_jobs := 0,
    admitted := [], queued := [] }

/-- The state after a call, or the unchanged state if an assertion fired. -/
def after (s : disk_job_fence) (c : fence_call) : disk_job_fence :=
  match step s c with
  | .ok t => t
  | .error _ => s

/-- Representation invariant of the blocked queue: no job is queued twice (an
intrusive list holds a node at most once), and a queued job carries the
`blocked` mark and is not in progress. -/
def queue_ok (s : disk_job_fence) : Prop :=
  s.m_blocked_jobs.Nodup ∧
  ∀ b ∈ s.m_blocked_jobs, (s.job b).blocked = true ∧ (s.job b).in_progress = false

/-- The state `t` differs from `s` by the admission, in order, of the jobs of
`pre` out of the blocked queue (the field `m_blocked_jobs` is not compared). -/
structure admitted_from (s t : disk_job_fence) (pre : List Nat) : Prop where
  has_fence : t.m_has_fence = s.m_has_fence
  outstanding : t.m_outstanding_jobs = s.m_outstanding_jobs + pre.length
  job : ∀ k, t.job k = if k ∈ pre then ⟨true, (s.job k).fence, false⟩ else s.job k
  stats : t.blocked_disk_jobs = s.blocked_disk_jobs
  queued : t.queued = s.queued
  log : ∃ evs : List admission, t.admitted = s.admitted ++ evs ∧
    evs.map admission.who = pre ∧
    ∀ e ∈ evs, e.is_fence = false ∧ e.from_queue = true

/-- A fence job (1) is running and an ordinary job (2) waits in the blocked
queue: the state after `raise_fence(1)` and `is_blocked(2)` on an idle fence. -/
def one_waiting : disk_job_fence :=
  (idle.after (.raise_fence 1)).after (.is_blocked 2)

/-- Two fence jobs were raised on an idle fence: 1 is running, 3 waits at the
head of the blocked queue. -/
def two_fences : disk_job_fence :=
  (idle.after (.raise_fence 1)).after (.raise_fence 3)

/-- One fence job (1) is running; behind it wait the ordinary jobs 2 and 4,
the fence job 3 and the ordinary job 6, in this order. -/
def mixed_queue : disk_job_fence :=
  ((((idle.after (.raise_fence 1)).after (.is_blocked 2)).after (.is_blocked 4)).after
    (.raise_fence 3)).after (.is_blocked 6)

/-- An ordinary job (0) is running, fence job 1 waits at the head of the
blocked queue, followed by the ordinary job 2. -/
def fence_pending : disk_job_fence :=
  ((idle.after (.is_blocked 0)).after (.raise_fence 1)).after (.is_blocked 2)

/-- The invariant kept by every call that respects `call_pre`.
* `count`: the outstanding counter is the number of jobs in progress;
* `queue`, `marked`: the blocked queue holds exactly the jobs marked blocked,
  once each, none of them in progress;
* `phase`: either no fence job is in progress, the fence counter is the number
  of fence jobs in the blocked queue and a non-empty queue starts with a fence
  job; or exactly one job is in progress, it is a fence job, and the fence
  counter is one more than the number of queued fence jobs;
* `log`: every fence job was marked in progress with outstanding going 0 → 1. -/
structure inv (s : disk_job_fence) : Prop where
  count : ∃ P : Finset Nat, (∀ k, k ∈ P ↔ (s.job k).in_progress = true) ∧
    s.m_outstanding_jobs = P.card
  queue : queue_ok s
  marked : ∀ k, (s.job k).blocked = true → k ∈ s.m_blocked_jobs
  phase :
    ((∀ k, (s.job k).in_progress = true → (s.job k).fence = false) ∧
      s.m_has_fence = s.m_blocked_jobs.countP (fun b => (s.job b).fence) ∧
      (∀ b q, s.m_blocked_jobs = b :: q → (s.job b).fence = true)) ∨
    (∃ f, (s.job f).fence = true ∧ (∀ k, (s.job k).in_progress = true ↔ k = f) ∧
      s.m_has_fence = s.m_blocked_jobs.countP (fun b => (s.job b).fence) + 1)
  log : ∀ e ∈ s.admitted, e.is_fence = true →
    e.outstanding_before = 0 ∧ e.outstanding_after = 1

/-- The state after fence job 1 has completed in `one_waiting`: job 2 was
released and is running. -/
def released : disk_job_fence := one_waiting.after (.job_complete 1 [])

/-- Two ordinary jobs (0 and 2) are running and fence job 1 waits in the
blocked queue. -/
def two_running : disk_job_fence :=
  ((idle.after (.is_blocked 0)).after (.is_blocked 2)).after (.raise_fence 1)

/-- The jobs released from the blocked queue so far, in the order in which
they were marked in progress (read off the history `admitted`). -/
def released_jobs (s : disk_job_fence) : List Nat :=
  (s.admitted.filter (fun e => e.from_queue)).map admission.who

/-- The fence jobs that are raised and not yet completed: those waiting in
the blocked queue or in progress. -/
def raised_fences (s : disk_job_fence) : Set Nat :=
  {k | (s.job k).fence = true ∧ (k ∈ s.m_blocked_jobs ∨ (s.job k).in_progress = true)}

/-- The jobs a call marked in progress: in progress in `t` and not in `s`. -/
def newly_in_progress (s t : disk_job_fence) : Set Nat :=
  {k | (t.job k).in_progress = true ∧ (s.job k).in_progress = false}

end disk_job_fence

/-! ## The job pool (`src/libtorrent/src/disk_job_pool.cpp`) -/

/-- The value of `mmap_disk_job::get_type()`: the two enumerators of
`job_action_t` the pool tells apart, and any other enumerator. -/
inductive job_action_t where
  | read
  | write
  | other (id : Nat)
  deriving DecidableEq, Repr

/-- The part of `mmap_disk_job` the pool uses: the debug-only member `in_use`
and the value of `get_type()`. -/
structure job_object where
  in_use : Bool
  action : job_action_t
  deriving DecidableEq, Repr

/-- The counters of `disk_job_pool`, the job objects its calls touch, and the
blocks handed back through `m_job_pool.free`, oldest first. -/
structure disk_job_pool where
  m_jobs_in_use : Int
  m_read_jobs : Int
  m_write_jobs : Int
  job : Nat → job_object
  freed : List Nat

namespace disk_job_pool

/-- `void disk_job_pool::free_job(mmap_disk_job* j)`; `none` is the null
pointer. The destructor call has no effect on the modelled members. -/
def free_job (p : disk_job_pool) : Option Nat → Except Nat disk_job_pool
  | none => .error 32
  | some j =>
    if !(p.job j).in_use then .error 35
    else
      let p1 : disk_job_pool :=
        { p with job := Function.update p.job j { p.job j with in_use := false } }
      let type := (p1.job j).action
      let p2 : disk_job_pool :=
        if type = .read then { p1 with m_read_jobs := p1.m_read_jobs - 1 }
        else if type = .write then { p1 with m_write_jobs := p1.m_write_jobs - 1 }
        else p1
      .ok { p2 with m_jobs_in_use := p2.m_jobs_in_use - 1, freed := p2.freed ++ [j] }

/-- The first loop of `free_jobs` (lines 51-59): the pair
(`read_jobs`, `write_jobs`) after the jobs of the array have been visited. -/
def count_jobs (p : disk_job_pool) : List Nat → Int × Int → Int × Int
  | [], c => c
  | x :: rest, c =>
    let type := (p.job x).action
    if type = .read then count_jobs p rest (c.1 + 1, c.2)
    else if type = .write then count_jobs p rest (c.1, c.2 + 1)
    else count_jobs p rest c

/-- `void disk_job_pool::free_jobs(mmap_disk_job** j, int const num)`: the
list is the array `j[0 .. num)` and `num` its length. The function contains no
assertion and does not touch `in_use`. -/
def free_jobs (p : disk_job_pool) (j : List Nat) : disk_job_pool :=
  if j.length = 0 then p
  else
    let c := count_jobs p j (0, 0)
    { p with
      m_read_jobs := p.m_read_jobs - c.1
      m_write_jobs := p.m_write_jobs - c.2
      m_jobs_in_use := p.m_jobs_in_use - j.length
      freed := p.freed ++ j }

/-- A pool with three jobs in use: 3 (read), 4 (write) and 5 (of another
kind); every other job object is not in use and of kind read. -/
def three_in_use : disk_job_pool :=
  { m_jobs_in_use := 3, m_read_jobs := 1, m_write_jobs := 1,
    job := fun k =>
      if k = 3 then ⟨true, .read⟩ else if k = 4 then ⟨true, .write⟩
      else if k = 5 then ⟨true, .other 2⟩ else ⟨false, .read⟩,
    freed := [] }

/-- The pool after `free_job(j)`, or the unchanged pool if an assertion fired. -/
def after_free_job (p : disk_job_pool) (j : Nat) : disk_job_pool :=
  match p.free_job (some j) with
  | .ok q => q
  | .error _ => p

end disk_job_pool

/-! ## The file view pool (`include/libtorrent/aux_/file_view_pool.hpp`)

The header declares the container and `size_limit`; the member functions are
defined in a source file that is not part of the verified sources and are
modelled from the specification. -/

/-- The key `file_id` of an entry (header line 98): storage index and file
index. -/
abbrev file_id := Nat × Nat

/-- Modelled from the spec: the access mode of a mapping, declared in a header
that is not available. The specification distinguishes a mapping cached
read-only from one opened for writing. -/
inductive open_mode_t where
  | read_only
  | read_write
  deriving DecidableEq, Repr

/-- `file_view_pool::file_entry` (header lines 100-126) without the
platform-conditional `dirty_bytes`; the shared `file_mapping` is represented by
an identifier and the time point by a number. -/
structure file_entry where
  key : file_id
  mapping : Nat
  last_use : Nat
  mode : open_mode_t
  deriving DecidableEq, Repr

/-- `file_view_pool` (header lines 96 and 143): the capacity `m_size` and the
container `m_files`, given by its sequenced index from the most recently used
entry to the least recently used one. -/
structure file_view_pool where
  m_size : Int
  m_files : List file_entry
  deriving DecidableEq, Repr

namespace file_view_pool

/-- `int size_limit() const` (header line 80). -/
def size_limit (p : file_view_pool) : Int := p.m_size

/-- Modelled from the spec: `remove_oldest` is declared at header line 94 and
defined in the missing source file. It removes the least recently used entry,
the next eviction candidate, and hands its mapping out for deferred
destruction; an empty pool is left as it is. -/
def remove_oldest (p : file_view_pool) : Option Nat × file_view_pool :=
  match p.m_files.getLast? with
  | none => (none, p)
  | some e => (some e.mapping, { p with m_files := p.m_files.dropLast })

/-- Modelled from the spec: whether a cached mode serves a requested mode; the
case named by the specification is read-only cached and write requested. -/
def compatible (cached requested : open_mode_t) : Bool :=
  !(cached = .read_only && requested = .read_write)

/-- Modelled from the spec: `open_file` is declared at header lines 61-66 and
defined in the missing source file. `backend` is the outcome of the storage
backend opening a fresh mapping (`none`: the open failed) and `now` the current
time. The result is the handle returned, or `none` for a reported open failure,
and the pool afterwards.
* Hit with a compatible mode: the entry moves to the most recently used
  position and its mapping is returned.
* Hit with an incompatible mode: the entry is closed and reopened with the
  requested mode, the new entry replacing it.
* Miss: if the entry count equals the capacity the least recently used entry
  is evicted first; then a fresh mapping is opened and inserted with the
  current time. -/
def open_file (p : file_view_pool) (st file_index : Nat) (m : open_mode_t)
    (now : Nat) (backend : Option Nat) : Option Nat × file_view_pool :=
  let others := p.m_files.filter (fun e => e.key ≠ (st, file_index))
  match p.m_files.find? (fun e => e.key = (st, file_index)) with
  | some e =>
    if compatible e.mode m then
      (some e.mapping, { p with m_files := e :: others })
    else
      match backend with
      | none => (none, { p with m_files := others })
      | some h => (some h, { p with m_files := ⟨(st, file_index), h, now, m⟩ :: others })
  | none =>
    let p1 := if (p.m_files.length : Int) = p.m_size then (remove_oldest p).2 else p
    match backend with
    | none => (none, p1)
    | some h => (some h, { p1 with m_files := ⟨(st, file_index), h, now, m⟩ :: p1.m_files })

/-- The pool after an `open_file` call. -/
def opened (p : file_view_pool) (st file_index : Nat) (m : open_mode_t)
    (now : Nat) (backend : Option Nat) : file_view_pool :=
  (p.open_file st file_index m now backend).2

/-- An empty pool of capacity 2. -/
def empty_two : file_view_pool := { m_size := 2, m_files := [] }

/-- The pool of capacity 2 after `open_file(7, 0)` and `open_file(7, 1)`. -/
def full_two : file_view_pool :=
  (empty_two.opened 7 0 .read_only 10 (some 100)).opened 7 1 .read_only 11 (some 101)

end file_view_pool

namespace disk_job_fence

/-- The call passes an empty out-queue to `job_complete` (no condition on the
other calls). -/
def empty_out : fence_call → Prop
  | .job_complete _ jobs => jobs = []
  | _ => True

/-- States reached from an initial state by calls that respect `call_pre`,
return, and give every `job_complete` an empty out-queue. -/
inductive reachable_empty_out : disk_job_fence → Prop
  | init (s : disk_job_fence) : initial s → reachable_empty_out s
  | call (s : disk_job_fence) (c : fence_call) (t : disk_job_fence) :
      reachable_empty_out s → call_pre s c → empty_out c → step s c = .ok t →
      reachable_empty_out t

/-- The state after the last ordinary job of `fence_pending` has completed:
fence job 1 was admitted and runs alone, job 2 still waits. -/
def fence_admitted : disk_job_fence := fence_pending.after (.job_complete 0 [])

end disk_job_fence

namespace file_view_pool

/-- Modelled from the spec: the walk of `release(storage)` over the entries,
in recency order. An entry of storage `st` is dropped and its mapping handed
out for deferred destruction; any other entry is kept as it is. The result is
the mappings handed out and the entries kept. -/
def release_entries (st : Nat) : List file_entry → List Nat × List file_entry
  | [] => ([], [])
  | e :: rest =>
    let r := release_entries st rest
    if e.key.1 = st then (e.mapping :: r.1, r.2) else (r.1, e :: r.2)

/-- Modelled from the spec: `void release(storage_index_t st)` is declared at
header line 72 and defined in the missing source file. It drops the entries of
storage `st` and no other; the capacity is not changed. The result is the
mappings handed out for deferred destruction and the pool afterwards. -/
def release (p : file_view_pool) (st : Nat) : List Nat × file_view_pool :=
  ((release_entries st p.m_files).1, { p with m_files := (release_entries st p.m_files).2 })

/-- A pool of capacity 4 holding, from most to least recently used, file 1 of
storage 7, file 0 of storage 8, file 0 of storage 7 and file 3 of storage 9. -/
def three_storages : file_view_pool :=
  { m_size := 4,
    m_files := [⟨(7, 1), 101, 13, .read_write⟩, ⟨(8, 0), 102, 12, .read_only⟩,
      ⟨(7, 0), 100, 11, .read_only⟩, ⟨(9, 3), 103, 10, .read_only⟩] }

end file_view_pool

namespace disk_job_pool

/-- Calling `free_job` on each job of the list, one after another, stopping at
the first assertion that fires. -/
def free_job_each (p : disk_job_pool) : List Nat → Except Nat disk_job_pool
  | [] => .ok p
  | x :: rest =>
    match p.free_job (some x) with
    | .error l => .error l
    | .ok q => free_job_each q rest

end disk_job_pool

/-! ## The external address voter (`include/libtorrent/aux_/ip_voter.hpp`) -/

namespace ip_voter

/-- `ip_voter::external_ip_t` (lines 39-60): the bits of the bloom filter
`voters`, the address `addr`, the bitmask `sources` of type `ip_source_t`, and
the 16-bit counter `num_votes`. -/
structure external_ip_t where
  voters : List Bool
  addr : Nat
  sources : Nat
  num_votes : Nat
  deriving DecidableEq, Repr

namespace external_ip_t

/-- `bool operator<(external_ip_t const& rhs) const` (lines 44-49);
`static_cast<std::uint8_t>(sources)` is `sources % 256`. -/
def lt (a rhs : external_ip_t) : Bool :=
  if a.num_votes > rhs.num_votes then true
  else if a.num_votes < rhs.num_votes then false
  else decide (a.sources % 256 > rhs.sources % 256)

end external_ip_t

end ip_voter

namespace disk_job_fence

theorem admitted_from_refl (s : disk_job_fence) : admitted_from s s [] :=
  ⟨rfl, by simp, by simp, rfl, rfl, ⟨[], by simp⟩⟩

theorem drain_admits (pre : List Nat) :
    ∀ (rest : List Nat) (s : disk_job_fence) (jobs : List Nat) (ret : Int),
      pre.Nodup →
      (∀ b ∈ pre, (s.job b).fence = false ∧ (s.job b).in_progress = false ∧
        (s.job b).blocked = true) →
      ∃ t, admitted_from s t pre ∧
        drain (pre ++ rest) s jobs ret = drain rest t (jobs ++ pre) (ret + pre.length) := by
  induction pre with
  | nil =>
    intro rest s jobs ret _ _
    exact ⟨s, admitted_from_refl s, by simp⟩
  | cons b pre ih =>
    intro rest s jobs ret hnd hall
    obtain ⟨hb, hnd2⟩ := List.nodup_cons.mp hnd
    obtain ⟨hbf, hbp, hbb⟩ := hall b (List.mem_cons_self _ _)
    have hne : ∀ k ∈ pre, k ≠ b := fun k hk e => hb (e ▸ hk)
    obtain ⟨t, ht, hd⟩ := ih rest
      ((({ s with m_blocked_jobs := pre ++ rest } : disk_job_fence).mark_in_progress b true).set_blocked
        b false) (jobs ++ [b]) (ret + 1) hnd2 (by
        intro k hk
        have := hall k (List.mem_cons_of_mem _ hk)
        simpa [set_blocked, mark_in_progress, Function.update_noteq (hne k hk)] using this)
    refine ⟨t, ?_, ?_⟩
    · obtain ⟨evs, he1, he2, he3⟩ := ht.log
      refine ⟨?_, ?_, ?_, ?_, ?_, ?_⟩
      · simpa [set_blocked, mark_in_progress] using ht.has_fence
      · have := ht.outstanding
        simp [set_blocked, mark_in_progress] at this
        rw [this]; simp; ring
      · intro k
        rw [ht.job k]
        by_cases hk : k ∈ pre
        · have := hne k hk
          simp [hk, set_blocked, mark_in_progress, Function.update_noteq this]
        · by_cases hkb : k = b
          · subst hkb
            simp [hk, set_blocked, mark_in_progress]
          · simp [hk, hkb, set_blocked, mark_in_progress, Function.update_noteq hkb]
      · simpa [set_blocked, mark_in_progress] using ht.stats
      · simpa [set_blocked, mark_in_progress] using ht.queued
      · refine ⟨⟨b, (s.job b).fence, s.m_outstanding_jobs, s.m_outstanding_jobs + 1, true⟩ :: evs,
          ?_, ?_, ?_⟩
        · simpa [set_blocked, mark_in_progress] using he1
        · simp [he2]
        · intro e he
          rcases List.mem_cons.mp he with rfl | he
          · exact ⟨hbf, rfl⟩
          · exact he3 e he
    · have e1 : jobs ++ b :: pre = jobs ++ [b] ++ pre := by simp
      have e2 : ret + ((b :: pre).length : Int) = ret + 1 + (pre.length : Int) := by
        simp; ring
      rw [e1, e2, ← hd]
      simp [drain, admit_blocked, hbf, hbp, hbb]

open libtorrent libtorrent.disk_job_fence

/-- C4: with fence counter 0 and outstanding counter 0, and `j` neither in
progress nor a fence job, `raise_fence(j)` returns `fence_post_fence`, sets the
fence and in-progress bits of `j`, leaves both counters at 1 and leaves the
blocked queue (and every other job) unchanged. -/
theorem C4_raise_fence_idle (s : disk_job_fence) (j : Nat)
    (hf : s.m_has_fence = 0) (ho : s.m_outstanding_jobs = 0)
    (hp : (s.job j).in_progress = false) (hfl : (s.job j).fence = false) :
    ∃ t, s.raise_fence j = .ok (.fence_post_fence, t) ∧
      (t.job j).fence = true ∧ (t.job j).in_progress = true ∧
      t.m_has_fence = 1 ∧ t.m_outstanding_jobs = 1 ∧
      t.m_blocked_jobs = s.m_blocked_jobs ∧
      (t.job j).blocked = (s.job j).blocked ∧ (∀ k, k ≠ j → t.job k = s.job k) := by
  refine ⟨({ s.set_fence j with m_has_fence := s.m_has_fence + 1 }).mark_in_progress j false,
    ?_, ?_⟩
  · simp [raise_fence, set_fence, hf, ho, hp, hfl]
  · simp [mark_in_progress, set_fence, hf, ho]
    intro k hk
    simp [Function.update_noteq hk]

theorem C4_witness :
    ∃ t, idle.raise_fence 7 = .ok (.fence_post_fence, t) ∧
      (t.job 7).fence = true ∧ (t.job 7).in_progress = true ∧
      t.m_has_fence = 1 ∧ t.m_outstanding_jobs = 1 ∧
      t.m_blocked_jobs = idle.m_blocked_jobs ∧
      (t.job 7).blocked = (idle.job 7).blocked ∧ (∀ k, k ≠ 7 → t.job k = idle.job k) :=
  C4_raise_fence_idle idle 7 rfl rfl rfl rfl

theorem reachable_one_waiting : reachable one_waiting :=
  reachable.call _ (.is_blocked 2) _
    (reachable.call _ (.raise_fence 1) _
      (reachable.init idle ⟨rfl, rfl, rfl, fun _ => ⟨rfl, rfl⟩, rfl, rfl⟩)
      ⟨rfl, rfl⟩ rfl)
    ⟨rfl, rfl⟩ rfl

/-- C5, as stated, fails: in a reachable state with a raised fence, job 2 is
neither in progress nor a fence job, yet `raise_fence(2)` stops at the assertion
of line 187 (`j->blocked == false`) because job 2 already waits in the blocked
queue; nothing is returned and nothing is appended. -/
theorem C5_counterexample :
    reachable one_waiting ∧
    (0 < one_waiting.m_has_fence ∨ 0 < one_waiting.m_outstanding_jobs) ∧
    (one_waiting.job 2).in_progress = false ∧ (one_waiting.job 2).fence = false ∧
    one_waiting.raise_fence 2 = .error 187 :=
  ⟨reachable_one_waiting, Or.inl (by decide), rfl, rfl, rfl⟩

/-- C5 (amended): if the fence counter or the outstanding counter is positive
and `j` is neither in progress, nor a fence job, nor marked blocked, then
`raise_fence(j)` returns `fence_post_none`, sets the fence bit of `j` and not
its in-progress bit, adds exactly 1 to the fence counter, keeps the outstanding
counter, and appends `j` at the tail of the blocked queue. -/
theorem C5_raise_fence_queues (s : disk_job_fence) (j : Nat)
    (hc : 0 < s.m_has_fence ∨ 0 < s.m_outstanding_jobs)
    (hp : (s.job j).in_progress = false) (hfl : (s.job j).fence = false)
    (hb : (s.job j).blocked = false) :
    ∃ t, s.raise_fence j = .ok (.fence_post_none, t) ∧
      (t.job j).fence = true ∧ (t.job j).in_progress = false ∧
      t.m_has_fence = s.m_has_fence + 1 ∧
      t.m_outstanding_jobs = s.m_outstanding_jobs ∧
      t.m_blocked_jobs = s.m_blocked_jobs ++ [j] ∧
      (∀ k, k ≠ j → t.job k = s.job k) := by
  have hne : ¬ (s.m_has_fence = 0 ∧ s.m_outstanding_jobs = 0) := by
    rintro ⟨h1, h2⟩
    rcases hc with h | h <;> omega
  refine ⟨{ (({ s.set_fence j with m_has_fence := s.m_has_fence + 1 } :
      disk_job_fence).set_blocked j true) with
      m_blocked_jobs := s.m_blocked_jobs ++ [j]
      queued := s.queued ++ [j]
      blocked_disk_jobs := s.blocked_disk_jobs + 1 }, ?_, ?_⟩
  · simp [raise_fence, set_fence, set_blocked, hp, hfl, hb, hne]
  · simp [set_fence, set_blocked, hp]
    intro k hk
    simp [Function.update_noteq hk]

theorem C5_witness :
    ∃ t, one_waiting.raise_fence 5 = .ok (.fence_post_none, t) ∧
      (t.job 5).fence = true ∧ (t.job 5).in_progress = false ∧
      t.m_has_fence = one_waiting.m_has_fence + 1 ∧
      t.m_outstanding_jobs = one_waiting.m_outstanding_jobs ∧
      t.m_blocked_jobs = one_waiting.m_blocked_jobs ++ [5] ∧
      (∀ k, k ≠ 5 → t.job k = one_waiting.job k) :=
  C5_raise_fence_queues one_waiting 5 (Or.inl (by decide)) rfl rfl rfl

/-- C6, as stated, fails: in a reachable state with a raised fence, job 2 is
not in progress, yet `is_blocked(2)` returns neither true nor false: it stops
at the assertion of line 139 (`j->blocked == false`), job 2 being already in
the blocked queue. -/
theorem C6_counterexample :
    reachable one_waiting ∧ (one_waiting.job 2).in_progress = false ∧
    0 < one_waiting.m_has_fence ∧
    one_waiting.is_blocked 2 = .error 139 :=
  ⟨reachable_one_waiting, rfl, by decide, rfl⟩

/-- C6 (amended): for a job `j` that is not in progress and not marked
blocked, `is_blocked(j)` returns true iff the fence counter is nonzero (for a
non-negative counter: iff it is > 0). When it returns false, `j` is marked in
progress, the outstanding counter grows by exactly 1, and the blocked queue and
the fence counter are unchanged; when it returns true, `j` is appended at the
tail of the blocked queue and marked blocked, `j` is not marked in progress, and
both counters are unchanged. -/
theorem C6_is_blocked (s : disk_job_fence) (j : Nat)
    (hp : (s.job j).in_progress = false) (hb : (s.job j).blocked = false) :
    ∃ r t, s.is_blocked j = .ok (r, t) ∧
      (r = true ↔ s.m_has_fence ≠ 0) ∧
      (0 ≤ s.m_has_fence → (r = true ↔ 0 < s.m_has_fence)) ∧
      (r = false →
        (t.job j).in_progress = true ∧
        t.m_outstanding_jobs = s.m_outstanding_jobs + 1 ∧
        t.m_blocked_jobs = s.m_blocked_jobs ∧ t.m_has_fence = s.m_has_fence) ∧
      (r = true →
        t.m_blocked_jobs = s.m_blocked_jobs ++ [j] ∧
        (t.job j).in_progress = false ∧ (t.job j).blocked = true ∧
        t.m_outstanding_jobs = s.m_outstanding_jobs ∧
        t.m_has_fence = s.m_has_fence) ∧
      (∀ k, k ≠ j → t.job k = s.job k) := by
  by_cases h0 : s.m_has_fence = 0
  · refine ⟨false, s.mark_in_progress j false, ?_, ?_⟩
    · simp [is_blocked, h0, hp]
    · simp [mark_in_progress, h0]
      intro k hk
      simp [Function.update_noteq hk]
  · let s1 : disk_job_fence :=
      { s with m_blocked_jobs := s.m_blocked_jobs ++ [j], queued := s.queued ++ [j] }
    refine ⟨true, s1.set_blocked j true, ?_, ?_⟩
    · simp [is_blocked, h0, hb, s1]
    · simp [set_blocked, h0, hp, s1]
      refine ⟨fun h => by omega, ?_⟩
      intro k hk
      simp [Function.update_noteq hk]

theorem C6_witness :
    ∃ r t, one_waiting.is_blocked 3 = .ok (r, t) ∧
      (r = true ↔ one_waiting.m_has_fence ≠ 0) ∧
      (0 ≤ one_waiting.m_has_fence → (r = true ↔ 0 < one_waiting.m_has_fence)) ∧
      (r = false →
        (t.job 3).in_progress = true ∧
        t.m_outstanding_jobs = one_waiting.m_outstanding_jobs + 1 ∧
        t.m_blocked_jobs = one_waiting.m_blocked_jobs ∧
        t.m_has_fence = one_waiting.m_has_fence) ∧
      (r = true →
        t.m_blocked_jobs = one_waiting.m_blocked_jobs ++ [3] ∧
        (t.job 3).in_progress = false ∧ (t.job 3).blocked = true ∧
        t.m_outstanding_jobs = one_waiting.m_outstanding_jobs ∧
        t.m_has_fence = one_waiting.m_has_fence) ∧
      (∀ k, k ≠ 3 → t.job k = one_waiting.job k) :=
  C6_is_blocked one_waiting 3 rfl rfl

/-- What `job_complete` does up to the loop when `j` is the running fence job
and the only outstanding job: the loop starts from the state with `j` no longer
in progress, outstanding 0 and the fence counter lowered by 1. -/
theorem job_complete_fence_eq (s : disk_job_fence) (j : Nat) (o : List Nat)
    (hj : (s.job j).in_progress = true) (hjf : (s.job j).fence = true)
    (ho : s.m_outstanding_jobs = 1) :
    s.job_complete j o =
      drain s.m_blocked_jobs
        { s with
          job := Function.update s.job j { s.job j with in_progress := false }
          m_outstanding_jobs := 0
          m_has_fence := s.m_has_fence - 1 } o 0 := by
  simp [job_complete, hj, hjf, ho]

/-- C7: when `j` is the running fence job (outstanding = 1) and no job of the
blocked queue `q` is a fence job, `job_complete(j, o)` returns `length q`,
empties the blocked queue, leaves the out-queue as `o` followed by `q` in queue
order, marks every job of `q` in progress, sets outstanding to `length q` and
lowers the fence counter by 1. -/
theorem C7_fence_completion_releases_queue (s : disk_job_fence) (j : Nat) (o : List Nat)
    (hq : queue_ok s)
    (hj : (s.job j).in_progress = true) (hjf : (s.job j).fence = true)
    (ho : s.m_outstanding_jobs = 1)
    (hnf : ∀ b ∈ s.m_blocked_jobs, (s.job b).fence = false) :
    ∃ t, s.job_complete j o = .ok (s.m_blocked_jobs.length, o ++ s.m_blocked_jobs, t) ∧
      t.m_blocked_jobs = [] ∧
      (∀ b ∈ s.m_blocked_jobs, (t.job b).in_progress = true) ∧
      t.m_outstanding_jobs = s.m_blocked_jobs.length ∧
      t.m_has_fence = s.m_has_fence - 1 ∧
      (t.job j).in_progress = false := by
  obtain ⟨hnd, hmem⟩ := hq
  have hjq : j ∉ s.m_blocked_jobs := fun h => by
    have := (hmem j h).2
    simp [hj] at this
  obtain ⟨t, ht, hd⟩ := drain_admits s.m_blocked_jobs []
    { s with
      job := Function.update s.job j { s.job j with in_progress := false }
      m_outstanding_jobs := 0
      m_has_fence := s.m_has_fence - 1 } o 0 hnd (by
      intro b hb
      have hbj : b ≠ j := fun e => hjq (e ▸ hb)
      simpa [Function.update_noteq hbj] using ⟨hnf b hb, (hmem b hb).2, (hmem b hb).1⟩)
  refine ⟨{ t with m_blocked_jobs := [] }, ?_, rfl, ?_, ?_, ?_, ?_⟩
  · rw [job_complete_fence_eq s j o hj hjf ho]
    simp only [List.append_nil] at hd
    rw [hd]
    simp [drain]
  · intro b hb
    simp [ht.job b, hb]
  · simpa using ht.outstanding
  · simpa using ht.has_fence
  · simp [ht.job j, hjq]

theorem C7_witness :
    (idle.raise_fence 1).map Prod.fst = .ok .fence_post_fence ∧
    ((idle.after (.raise_fence 1)).is_blocked 2).map Prod.fst = .ok true ∧
    ∃ t, one_waiting.job_complete 1 [] = .ok (1, [2], t) ∧
      t.m_blocked_jobs = [] ∧
      (∀ b ∈ [2], (t.job b).in_progress = true) ∧
      t.m_outstanding_jobs = 1 ∧
      t.m_has_fence = 1 - 1 ∧
      (t.job 1).in_progress = false :=
  ⟨rfl, rfl,
    C7_fence_completion_releases_queue one_waiting 1 [] ⟨by decide, by decide⟩ rfl rfl rfl
      (by decide)⟩

/-- C8: when `j` is the running fence job (outstanding = 1) and the blocked
queue is `pre ++ f :: rest` with `pre` a non-empty run of ordinary jobs and `f`
a fence job, `job_complete(j, o)` returns `length pre`, appends the jobs of
`pre` in order to the out-queue and marks them in progress, and leaves the
blocked queue equal to `f :: rest`, none of whose jobs is in progress. -/
theorem C8_drain_stops_at_fence (s : disk_job_fence) (j : Nat) (o : List Nat)
    (pre : List Nat) (f : Nat) (rest : List Nat)
    (hq : queue_ok s)
    (hj : (s.job j).in_progress = true) (hjf : (s.job j).fence = true)
    (ho : s.m_outstanding_jobs = 1)
    (hsplit : s.m_blocked_jobs = pre ++ f :: rest) (hpre : pre ≠ [])
    (hnf : ∀ b ∈ pre, (s.job b).fence = false) (hf : (s.job f).fence = true) :
    ∃ t, s.job_complete j o = .ok (pre.length, o ++ pre, t) ∧
      (∀ b ∈ pre, (t.job b).in_progress = true) ∧
      t.m_blocked_jobs = f :: rest ∧
      (∀ b ∈ f :: rest, (t.job b).in_progress = false) ∧
      t.m_outstanding_jobs = pre.length ∧
      t.m_has_fence = s.m_has_fence - 1 := by
  obtain ⟨hnd, hmem⟩ := hq
  rw [hsplit] at hnd hmem
  have hjq : j ∉ pre ++ f :: rest := fun h => by
    have := (hmem j h).2
    simp [hj] at this
  have hdis : ∀ b ∈ f :: rest, b ∉ pre := fun b hb hb2 =>
    (List.nodup_append.mp hnd).2.2 hb2 hb
  obtain ⟨t, ht, hd⟩ := drain_admits pre (f :: rest)
    { s with
      job := Function.update s.job j { s.job j with in_progress := false }
      m_outstanding_jobs := 0
      m_has_fence := s.m_has_fence - 1 } o 0 (List.nodup_append.mp hnd).1 (by
      intro b hb
      have hb2 : b ∈ pre ++ f :: rest := List.mem_append_left _ hb
      have hbj : b ≠ j := fun e => hjq (e ▸ hb2)
      simpa [Function.update_noteq hbj] using ⟨hnf b hb, (hmem b hb2).2, (hmem b hb2).1⟩)
  have hfj : f ≠ j := fun e => hjq (e ▸ (by simp))
  have hfp : f ∉ pre := hdis f (by simp)
  have hlen : (pre.length : Int) ≠ 0 := by
    cases pre with
    | nil => exact absurd rfl hpre
    | cons a l => simp; omega
  refine ⟨{ t with m_blocked_jobs := f :: rest }, ?_, ?_, rfl, ?_, ?_, ?_⟩
  · rw [hsplit] at hd
    rw [job_complete_fence_eq s j o hj hjf ho, hsplit, hd]
    have h1 : (t.job f).fence = true := by
      simp [ht.job f, hfp, Function.update_noteq hfj, hf]
    have h2 : t.m_outstanding_jobs ≠ 0 := by
      have := ht.outstanding
      simp at this
      rw [this]; exact hlen
    simp [drain, h1, h2]
  · intro b hb
    simp [ht.job b, hb]
  · intro b hb
    have hb2 : b ∈ pre ++ f :: rest := List.mem_append_right _ hb
    by_cases hbj : b = j
    · subst hbj
      simp [ht.job b, hdis b hb]
    · simpa [ht.job b, hdis b hb, Function.update_noteq hbj] using (hmem b hb2).2
  · simpa using ht.outstanding
  · simpa using ht.has_fence

theorem C8_witness :
    ∃ t, mixed_queue.job_complete 1 [9] = .ok (2, [9, 2, 4], t) ∧
      (∀ b ∈ [2, 4], (t.job b).in_progress = true) ∧
      t.m_blocked_jobs = [3, 6] ∧
      (∀ b ∈ [3, 6], (t.job b).in_progress = false) ∧
      t.m_outstanding_jobs = 2 ∧
      t.m_has_fence = 2 - 1 :=
  C8_drain_stops_at_fence mixed_queue 1 [9] [2, 4] 3 [6] ⟨by decide, by decide⟩ rfl rfl rfl
    rfl (by decide) (by decide) rfl

/-- C9, as stated, fails for a non-empty out-queue: fence job 1 is the only
job in progress and fence job 3 heads the blocked queue, yet with the out-queue
`[5]` passed by the caller `job_complete(1, [5])` returns 0, leaves the
out-queue `[5]`, keeps job 3 at the head of the blocked queue and not in
progress, and leaves outstanding at 0 (the guard of line 60 tests
`jobs.empty()`). -/
theorem C9_counterexample :
    reachable two_fences ∧
    (two_fences.job 1).in_progress = true ∧ (two_fences.job 1).fence = true ∧
    two_fences.m_outstanding_jobs = 1 ∧
    two_fences.m_blocked_jobs = [3] ∧ (two_fences.job 3).fence = true ∧
    (two_fences.job_complete 1 [5]).map
      (fun r => (r.1, r.2.1, r.2.2.m_blocked_jobs, (r.2.2.job 3).in_progress,
        r.2.2.m_outstanding_jobs)) = .ok (0, [5], [3], false, 0) :=
  ⟨reachable.call _ (.raise_fence 3) _
      (reachable.call _ (.raise_fence 1) _
        (reachable.init idle ⟨rfl, rfl, rfl, fun _ => ⟨rfl, rfl⟩, rfl, rfl⟩)
        ⟨rfl, rfl⟩ rfl)
      ⟨rfl, rfl⟩ rfl,
    rfl, rfl, rfl, rfl, rfl, rfl⟩

/-- What the loop does with a fence job at the head of the queue when the
caller passes a non-empty out-queue: the fence job goes back to the head of
the blocked queue, nothing is admitted and 0 is returned. -/
theorem job_complete_fence_deferred (s : disk_job_fence) (j : Nat) (o : List Nat)
    (f : Nat) (rest : List Nat)
    (hq : queue_ok s)
    (hj : (s.job j).in_progress = true) (hjf : (s.job j).fence = true)
    (ho : s.m_outstanding_jobs = 1)
    (hsplit : s.m_blocked_jobs = f :: rest) (hf : (s.job f).fence = true)
    (hne : o ≠ []) :
    ∃ t, s.job_complete j o = .ok (0, o, t) ∧
      (t.job f).in_progress = false ∧ t.m_outstanding_jobs = 0 ∧
      t.m_blocked_jobs = f :: rest ∧ t.m_has_fence = s.m_has_fence - 1 := by
  obtain ⟨_, hmem⟩ := hq
  rw [hsplit] at hmem
  obtain ⟨hfb, hfp⟩ := hmem f (by simp)
  have hfj : f ≠ j := fun e => by simp [e, hj] at hfp
  let s0 : disk_job_fence :=
    { s with
      job := Function.update s.job j { s.job j with in_progress := false }
      m_outstanding_jobs := 0
      m_has_fence := s.m_has_fence - 1 }
  refine ⟨{ s0 with m_blocked_jobs := f :: rest }, ?_, ?_⟩
  · rw [job_complete_fence_eq s j o hj hjf ho, hsplit]
    simp [drain, Function.update_noteq hfj, hf, hne, s0]
  · simp [Function.update_noteq hfj, hfp, s0]

/-- C9 (amended): when `j` is the running fence job (outstanding = 1), the
head of the blocked queue is a fence job `f` and the out-queue passed by the
caller is empty, `job_complete(j, [])` admits `f` at once: it returns 1, marks
`f` in progress, sets outstanding to 1, makes the out-queue `[f]` and removes
`f` from the blocked queue, the rest of which is unchanged. -/
theorem C9_chained_fence (s : disk_job_fence) (j : Nat)
    (f : Nat) (rest : List Nat)
    (hq : queue_ok s)
    (hj : (s.job j).in_progress = true) (hjf : (s.job j).fence = true)
    (ho : s.m_outstanding_jobs = 1)
    (hsplit : s.m_blocked_jobs = f :: rest) (hf : (s.job f).fence = true) :
    ∃ t, s.job_complete j [] = .ok (1, [f], t) ∧
      (t.job f).in_progress = true ∧ t.m_outstanding_jobs = 1 ∧
      t.m_blocked_jobs = rest ∧ t.m_has_fence = s.m_has_fence - 1 := by
  obtain ⟨_, hmem⟩ := hq
  rw [hsplit] at hmem
  obtain ⟨hfb, hfp⟩ := hmem f (by simp)
  have hfj : f ≠ j := fun e => by simp [e, hj] at hfp
  let s0 : disk_job_fence :=
    { s with
      job := Function.update s.job j { s.job j with in_progress := false }
      m_outstanding_jobs := 0
      m_has_fence := s.m_has_fence - 1 }
  refine ⟨(({ s0 with m_blocked_jobs := rest } : disk_job_fence).mark_in_progress f
    true).set_blocked f false, ?_, ?_⟩
  · rw [job_complete_fence_eq s j [] hj hjf ho, hsplit]
    simp [drain, admit_blocked, Function.update_noteq hfj, hf, hfb, hfp, s0]
  · simp [set_blocked, mark_in_progress, s0]

theorem C9_witness :
    ∃ t, two_fences.job_complete 1 [] = .ok (1, [3], t) ∧
      (t.job 3).in_progress = true ∧ t.m_outstanding_jobs = 1 ∧
      t.m_blocked_jobs = [] ∧ t.m_has_fence = 2 - 1 :=
  C9_chained_fence two_fences 1 3 [] ⟨by decide, by decide⟩ rfl rfl rfl rfl rfl

/-- C10: when the ordinary job `j` is the only outstanding job, the fence
counter is positive and the head of the blocked queue is a fence job `f`,
`job_complete(j, o)` returns 1, marks `f` in progress, sets outstanding to 1,
keeps the fence counter, removes `f` from the head of the blocked queue and
makes the out-queue `f :: o`. -/
theorem C10_last_job_admits_fence (s : disk_job_fence) (j : Nat) (o : List Nat)
    (f : Nat) (rest : List Nat)
    (hq : queue_ok s)
    (hj : (s.job j).in_progress = true) (hjf : (s.job j).fence = false)
    (ho : s.m_outstanding_jobs = 1) (hfc : 0 < s.m_has_fence)
    (hsplit : s.m_blocked_jobs = f :: rest) (hf : (s.job f).fence = true) :
    ∃ t, s.job_complete j o = .ok (1, f :: o, t) ∧
      (t.job f).in_progress = true ∧ t.m_outstanding_jobs = 1 ∧
      t.m_has_fence = s.m_has_fence ∧ t.m_blocked_jobs = rest ∧
      (t.job j).in_progress = false := by
  obtain ⟨_, hmem⟩ := hq
  rw [hsplit] at hmem
  obtain ⟨hfb, hfp⟩ := hmem f (by simp)
  have hfj : f ≠ j := fun e => by simp [e, hj] at hfp
  have hfc2 : s.m_has_fence ≠ 0 := by omega
  let s0 : disk_job_fence :=
    { s with
      job := Function.update s.job j { s.job j with in_progress := false }
      m_outstanding_jobs := 0
      m_blocked_jobs := rest }
  refine ⟨(s0.mark_in_progress f true).set_blocked f false, ?_, ?_⟩
  · simp [job_complete, admit_blocked, hj, hjf, ho, hfc2, hsplit,
      Function.update_noteq hfj, hf, hfb, hfp, s0]
  · simp [set_blocked, mark_in_progress, Function.update_noteq hfj.symm, s0]

theorem C10_witness :
    ∃ t, fence_pending.job_complete 0 [8] = .ok (1, 1 :: [8], t) ∧
      (t.job 1).in_progress = true ∧ t.m_outstanding_jobs = 1 ∧
      t.m_has_fence = 1 ∧ t.m_blocked_jobs = [2] ∧
      (t.job 0).in_progress = false :=
  C10_last_job_admits_fence fence_pending 0 [8] 1 [2] ⟨by decide, by decide⟩ rfl rfl rfl
    (by decide) rfl rfl

theorem inv_of_initial (s : disk_job_fence) (h : initial s) : inv s := by
  obtain ⟨h1, h2, h3, h4, h5, h6⟩ := h
  refine ⟨⟨∅, ?_, ?_⟩, ⟨?_, ?_⟩, ?_, Or.inl ⟨?_, ?_, ?_⟩, ?_⟩
  · intro k; simp [(h4 k).1]
  · simp [h2]
  · simp [h3]
  · simp [h3]
  · intro k hk; simp [(h4 k).2] at hk
  · intro k hk; simp [(h4 k).1] at hk
  · simp [h1, h3]
  · simp [h3]
  · simp [h5]

/-- With a zero fence counter the blocked queue is empty and no fence job is
in progress. -/
theorem inv_no_fence (s : disk_job_fence) (h : inv s) (h0 : s.m_has_fence = 0) :
    s.m_blocked_jobs = [] ∧
    ∀ k, (s.job k).in_progress = true → (s.job k).fence = false := by
  rcases h.phase with ⟨ha, hb, hc⟩ | ⟨f, _, _, hb⟩
  · refine ⟨?_, ha⟩
    cases hq : s.m_blocked_jobs with
    | nil => rfl
    | cons b q =>
      have hfb := hc b q hq
      rw [hq, List.countP_cons_of_pos _ _ (by simpa using hfb)] at hb
      omega
  · omega

theorem inv_outstanding_zero (s : disk_job_fence) (h : inv s)
    (h0 : s.m_outstanding_jobs = 0) : ∀ k, (s.job k).in_progress = false := by
  obtain ⟨P, hP, hc⟩ := h.count
  intro k
  have : P = ∅ := by
    apply Finset.card_eq_zero.mp
    omega
  have hk := hP k
  simp [this] at hk
  simpa using hk

theorem inv_is_blocked (s t : disk_job_fence) (j : Nat) (r : Bool) (h : inv s)
    (hp : (s.job j).in_progress = false) (hf : (s.job j).fence = false)
    (hs : s.is_blocked j = .ok (r, t)) : inv t := by
  by_cases h0 : s.m_has_fence = 0
  · -- admitted at once
    simp [is_blocked, h0, hp] at hs
    obtain ⟨-, rfl⟩ := hs
    obtain ⟨hq, hnofence⟩ := inv_no_fence s h h0
    obtain ⟨P, hP, hc⟩ := h.count
    have hjP : j ∉ P := fun hj => by simp [(hP j).mp hj] at hp
    refine ⟨⟨insert j P, ?_, ?_⟩, ⟨?_, ?_⟩, ?_, Or.inl ⟨?_, ?_, ?_⟩, ?_⟩
    · intro k
      by_cases hk : k = j
      · subst hk; simp [mark_in_progress]
      · simp [mark_in_progress, Function.update_noteq hk, hk, hP k]
    · simp [mark_in_progress, hc, Finset.card_insert_of_not_mem hjP]
    · simp [mark_in_progress, hq]
    · simp [mark_in_progress, hq]
    · intro k hk
      by_cases hkj : k = j
      · subst hkj
        have := h.marked k (by simpa [mark_in_progress] using hk)
        simp [hq] at this
      · have := h.marked k (by simpa [mark_in_progress, Function.update_noteq hkj] using hk)
        simp [hq] at this
    · intro k hk
      by_cases hkj : k = j
      · subst hkj; simpa [mark_in_progress] using hf
      · simp [mark_in_progress, Function.update_noteq hkj] at hk ⊢
        exact hnofence k hk
    · simp [mark_in_progress, hq, h0]
    · simp [mark_in_progress, hq]
    · intro e he hfe
      simp [mark_in_progress] at he
      rcases he with he | rfl
      · exact h.log e he hfe
      · simp [hf] at hfe
  · -- queued
    by_cases hb : (s.job j).blocked = true
    · simp [is_blocked, h0, hb] at hs
    · simp [is_blocked, h0, hb] at hs
      obtain ⟨-, rfl⟩ := hs
      obtain ⟨hnd, hmem⟩ := h.queue
      have hjq : j ∉ s.m_blocked_jobs := fun hj => hb (hmem j hj).1
      have hcount : List.countP (fun b => (Function.update s.job j
          { s.job j with blocked := true } b).fence) (s.m_blocked_jobs ++ [j]) =
          List.countP (fun b => (s.job b).fence) s.m_blocked_jobs := by
        rw [List.countP_append]
        have : List.countP (fun b => (Function.update s.job j
            { s.job j with blocked := true } b).fence) s.m_blocked_jobs =
            List.countP (fun b => (s.job b).fence) s.m_blocked_jobs := by
          apply List.countP_congr
          intro b hbq
          have : b ≠ j := fun e => hjq (e ▸ hbq)
          simp [Function.update_noteq this]
        rw [this]
        simp [hf]
      refine ⟨?_, ⟨?_, ?_⟩, ?_, ?_, ?_⟩
      · obtain ⟨P, hP, hc⟩ := h.count
        refine ⟨P, ?_, by simpa [set_blocked] using hc⟩
        intro k
        by_cases hk : k = j
        · subst hk; simp [set_blocked, hP k]
        · simp [set_blocked, Function.update_noteq hk, hP k]
      · simp [set_blocked]
        exact List.Nodup.append hnd (by simp) (by simpa using hjq)
      · intro b hbq
        simp [set_blocked] at hbq ⊢
        by_cases hbj : b = j
        · subst hbj; simp [hp]
        · rcases hbq with hbq | hbq
          · simpa [Function.update_noteq hbj] using hmem b hbq
          · exact absurd hbq hbj
      · intro k hk
        by_cases hkj : k = j
        · subst hkj; simp [set_blocked]
        · simp [set_blocked, Function.update_noteq hkj] at hk ⊢
          exact Or.inl (h.marked k hk)
      · rcases h.phase with ⟨ha, hb2, hc⟩ | ⟨f, hf1, hf2, hf3⟩
        · refine Or.inl ⟨?_, ?_, ?_⟩
          · intro k hk
            by_cases hkj : k = j
            · subst hkj; simpa [set_blocked] using hf
            · simp [set_blocked, Function.update_noteq hkj] at hk ⊢
              exact ha k hk
          · simp only [set_blocked]
            rw [hcount]; exact hb2
          · intro b q hbq
            simp only [set_blocked] at hbq ⊢
            cases hq : s.m_blocked_jobs with
            | nil =>
              rw [hq] at hb2
              simp at hb2
              exact absurd hb2 h0
            | cons b2 q2 =>
              rw [hq] at hbq
              simp at hbq
              obtain ⟨rfl, -⟩ := hbq
              have hbj : b2 ≠ j := fun e => hjq (by rw [hq, e]; simp)
              simpa [Function.update_noteq hbj] using hc b2 q2 hq
        · refine Or.inr ⟨f, ?_, ?_, ?_⟩
          · by_cases hfj : f = j
            · subst hfj; simpa [set_blocked] using hf1
            · simpa [set_blocked, Function.update_noteq hfj] using hf1
          · intro k
            by_cases hkj : k = j
            · subst hkj; simpa [set_blocked] using hf2 k
            · simpa [set_blocked, Function.update_noteq hkj] using hf2 k
          · simp only [set_blocked]
            rw [hcount]; exact hf3
      · intro e he
        exact h.log e (by simpa [set_blocked] using he)

theorem countP_fence_update (job : Nat → mmap_disk_job) (q : List Nat) (j : Nat)
    (v : mmap_disk_job) (hjq : j ∉ q) :
    List.countP (fun b => (Function.update job j v b).fence) q =
      List.countP (fun b => (job b).fence) q := by
  apply List.countP_congr
  intro b hbq
  have : b ≠ j := fun e => hjq (e ▸ hbq)
  simp [Function.update_noteq this]

theorem countP_fence_update_append (job : Nat → mmap_disk_job) (q : List Nat) (j : Nat)
    (v : mmap_disk_job) (hjq : j ∉ q) :
    List.countP (fun b => (Function.update job j v b).fence) (q ++ [j]) =
      List.countP (fun b => (job b).fence) q + (if v.fence = true then 1 else 0) := by
  rw [List.countP_append, countP_fence_update job q j v hjq]
  by_cases hv : v.fence = true <;> simp [hv]

theorem inv_raise_fence (s t : disk_job_fence) (j : Nat) (r : fence_result) (h : inv s)
    (hp : (s.job j).in_progress = false) (hf : (s.job j).fence = false)
    (hs : s.raise_fence j = .ok (r, t)) : inv t := by
  by_cases h0 : s.m_has_fence = 0 ∧ s.m_outstanding_jobs = 0
  · -- admitted at once
    obtain ⟨h0, h1⟩ := h0
    simp [raise_fence, set_fence, h0, h1, hp, hf] at hs
    obtain ⟨-, rfl⟩ := hs
    obtain ⟨hq, -⟩ := inv_no_fence s h h0
    have hnone := inv_outstanding_zero s h h1
    refine ⟨⟨{j}, ?_, ?_⟩, ⟨?_, ?_⟩, ?_, Or.inr ⟨j, ?_, ?_, ?_⟩, ?_⟩
    · intro k
      by_cases hk : k = j
      · subst hk; simp [mark_in_progress]
      · simp [mark_in_progress, Function.update_noteq hk, hk, hnone k]
    · simp [mark_in_progress, h1]
    · simp [mark_in_progress, hq]
    · simp [mark_in_progress, hq]
    · intro k hk
      by_cases hkj : k = j
      · subst hkj
        have := h.marked k (by simpa [mark_in_progress] using hk)
        simp [hq] at this
      · have := h.marked k (by simpa [mark_in_progress, Function.update_noteq hkj] using hk)
        simp [hq] at this
    · simp [mark_in_progress]
    · intro k
      by_cases hk : k = j
      · subst hk; simp [mark_in_progress]
      · simp [mark_in_progress, Function.update_noteq hk, hk, hnone k]
    · simp [mark_in_progress, hq]
    · intro e he hfe
      simp [mark_in_progress] at he
      rcases he with he | rfl
      · exact h.log e he hfe
      · simp [h1]
  · -- queued behind the running jobs
    by_cases hb : (s.job j).blocked = true
    · simp [raise_fence, set_fence, h0, hp, hf, hb] at hs
    · simp [raise_fence, set_fence, set_blocked, h0, hp, hf, hb] at hs
      obtain ⟨-, rfl⟩ := hs
      obtain ⟨hnd, hmem⟩ := h.queue
      have hjq : j ∉ s.m_blocked_jobs := fun hj => hb (hmem j hj).1
      refine ⟨?_, ⟨?_, ?_⟩, ?_, ?_, ?_⟩
      · obtain ⟨P, hP, hc⟩ := h.count
        refine ⟨P, ?_, by simpa using hc⟩
        intro k
        by_cases hk : k = j
        · subst hk; simp [hP k, hp]
        · simp [Function.update_noteq hk, hP k]
      · simp
        exact List.Nodup.append hnd (by simp) (by simpa using hjq)
      · intro b hbq
        simp at hbq ⊢
        by_cases hbj : b = j
        · subst hbj; simp [hp]
        · rcases hbq with hbq | hbq
          · simpa [Function.update_noteq hbj] using hmem b hbq
          · exact absurd hbq hbj
      · intro k hk
        by_cases hkj : k = j
        · subst hkj; simp
        · simp [Function.update_noteq hkj] at hk ⊢
          exact Or.inl (h.marked k hk)
      · rcases h.phase with ⟨ha, hb2, hc⟩ | ⟨f, hf1, hf2, hf3⟩
        · refine Or.inl ⟨?_, ?_, ?_⟩
          · intro k hk
            by_cases hkj : k = j
            · subst hkj; simp [hp] at hk
            · simp [Function.update_noteq hkj] at hk ⊢
              exact ha k hk
          · simp only [Function.update_idem]
            rw [countP_fence_update_append _ _ _ _ hjq, hb2]; simp
          · intro b q hbq
            simp only [Function.update_idem] at hbq ⊢
            cases hq : s.m_blocked_jobs with
            | nil =>
              rw [hq] at hbq
              simp at hbq
              obtain ⟨rfl, -⟩ := hbq
              simp
            | cons b2 q2 =>
              rw [hq] at hbq
              simp at hbq
              obtain ⟨rfl, -⟩ := hbq
              have hbj : b2 ≠ j := fun e => hjq (by rw [hq, e]; simp)
              simpa [Function.update_noteq hbj] using hc b2 q2 hq
        · have hfj : f ≠ j := fun e => by
            have := (hf2 f).mpr rfl
            rw [e, hp] at this
            exact absurd this (by simp)
          refine Or.inr ⟨f, ?_, ?_, ?_⟩
          · simpa [Function.update_noteq hfj] using hf1
          · intro k
            by_cases hkj : k = j
            · rw [hkj]; simpa using fun e => hfj e.symm
            · simpa [Function.update_noteq hkj] using hf2 k
          · simp only [Function.update_idem]
            rw [countP_fence_update_append _ _ _ _ hjq, hf3]; simp
      · intro e he
        exact h.log e (by simpa using he)

/-- Completion of an ordinary job from a state satisfying `inv`: no assertion
fires and the invariant is kept. -/
theorem inv_job_complete_ordinary (s : disk_job_fence) (j : Nat) (o : List Nat)
    (h : inv s) (hj : (s.job j).in_progress = true) (hjf : (s.job j).fence = false) :
    ∃ r, s.job_complete j o = .ok r ∧ inv r.2.2 := by
  obtain ⟨P, hP, hc⟩ := h.count
  obtain ⟨hnd, hmem⟩ := h.queue
  have hjP : j ∈ P := (hP j).mpr hj
  have hcard : (P.erase j).card + 1 = P.card := Finset.card_erase_add_one hjP
  have hjq : j ∉ s.m_blocked_jobs := fun hq => by
    have := (hmem j hq).2
    simp [hj] at this
  have hpos : 0 < s.m_outstanding_jobs := by omega
  rcases h.phase with ⟨ha, hb, hhead⟩ | ⟨f, hf1, hf2, _⟩
  swap
  · have := (hf2 j).mp hj
    subst this
    simp [hjf] at hf1
  have hcnt : List.countP (fun b => (Function.update s.job j
      { s.job j with in_progress := false } b).fence) s.m_blocked_jobs =
      List.countP (fun b => (s.job b).fence) s.m_blocked_jobs :=
    countP_fence_update _ _ _ _ hjq
  by_cases hdone : 0 < s.m_outstanding_jobs - 1 ∨ s.m_has_fence = 0
  · -- nothing to release
    refine ⟨(0, o, { s with
        job := Function.update s.job j { s.job j with in_progress := false }
        m_outstanding_jobs := s.m_outstanding_jobs - 1 }), ?_, ?_⟩
    · rcases hdone with h1 | h1
      · have h2 : 1 < s.m_outstanding_jobs := by omega
        simp [job_complete, hj, hjf, hpos, h2, not_le.mpr h2]
      · simp [job_complete, hj, hjf, hpos, h1]
    · refine ⟨⟨P.erase j, ?_, ?_⟩, ⟨hnd, ?_⟩, ?_, Or.inl ⟨?_, ?_, ?_⟩, h.log⟩
      · intro k
        by_cases hk : k = j
        · subst hk; simp
        · simp [Function.update_noteq hk, hk, hP k]
      · simp; omega
      · intro b hbq
        have hbj : b ≠ j := fun e => hjq (e ▸ hbq)
        simpa [Function.update_noteq hbj] using hmem b hbq
      · intro k hk
        by_cases hkj : k = j
        · subst hkj; exact h.marked k (by simpa using hk)
        · exact h.marked k (by simpa [Function.update_noteq hkj] using hk)
      · intro k hk
        by_cases hkj : k = j
        · subst hkj; simp at hk
        · simp [Function.update_noteq hkj] at hk ⊢
          exact ha k hk
      · simp only []
        rw [hcnt]; exact hb
      · intro b q hbq
        have hbj : b ≠ j := fun e => hjq (by rw [show s.m_blocked_jobs = b :: q from hbq, e]; simp)
        simpa [Function.update_noteq hbj] using hhead b q hbq
  · -- the last running job is done and a fence is raised
    have hone : s.m_outstanding_jobs = 1 := by
      have : ¬ 0 < s.m_outstanding_jobs - 1 := fun h1 => hdone (Or.inl h1)
      omega
    have hfc : s.m_has_fence ≠ 0 := fun h1 => hdone (Or.inr h1)
    have hPj : ∀ k, (s.job k).in_progress = true → k = j := by
      intro k hk
      have hkP := (hP k).mpr hk
      have h1 : P.card = 1 := by omega
      obtain ⟨a, ha1⟩ := Finset.card_eq_one.mp h1
      rw [ha1] at hkP hjP
      simp at hkP hjP
      rw [hkP, hjP]
    cases hq : s.m_blocked_jobs with
    | nil =>
      rw [hq] at hb
      simp at hb
      exact absurd hb hfc
    | cons bj q =>
      have hbf := hhead bj q hq
      rw [hq] at hnd hmem hjq
      obtain ⟨hbb, hbp⟩ := hmem bj (by simp)
      have hbj : bj ≠ j := fun e => hjq (by simp [e])
      obtain ⟨hbq, hndq⟩ := List.nodup_cons.mp hnd
      let s0 : disk_job_fence :=
        { s with
          job := Function.update s.job j { s.job j with in_progress := false }
          m_outstanding_jobs := 0
          m_blocked_jobs := q }
      have hjob : ∀ k, ((s0.mark_in_progress bj true).set_blocked bj false).job k =
          if k = bj then ⟨true, true, false⟩
          else if k = j then { s.job j with in_progress := false } else s.job k := by
        intro k
        by_cases hk : k = bj
        · subst hk
          simp [set_blocked, mark_in_progress, s0, Function.update_noteq hbj, hbf]
        · by_cases hk2 : k = j
          · subst hk2
            simp [set_blocked, mark_in_progress, s0, Function.update_noteq hk, hk]
          · simp [set_blocked, mark_in_progress, s0, Function.update_noteq hk,
              Function.update_noteq hk2, hk, hk2]
      refine ⟨(1, bj :: o, (s0.mark_in_progress bj true).set_blocked bj false), ?_, ?_⟩
      · simp [job_complete, admit_blocked, hj, hjf, hone, hfc, hq,
          Function.update_noteq hbj, hbf, hbb, hbp, s0]
      · refine ⟨⟨{bj}, ?_, ?_⟩, ⟨?_, ?_⟩, ?_, Or.inr ⟨bj, ?_, ?_, ?_⟩, ?_⟩
        · intro k
          rw [hjob k]
          by_cases hk : k = bj
          · subst hk; simp
          · by_cases hk2 : k = j
            · subst hk2; simp [hk]
            · have : (s.job k).in_progress ≠ true := fun e => hk2 (hPj k e)
              simpa [hk, hk2] using this
        · simp [set_blocked, mark_in_progress, s0]
        · simpa [set_blocked, mark_in_progress, s0] using hndq
        · intro b hbq2
          have hbq3 : b ∈ q := hbq2
          have h1 : b ≠ bj := fun e => hbq (e ▸ hbq3)
          have h2 : b ≠ j := fun e => hjq (by simp [← e, hbq3])
          rw [hjob b]
          simpa [h1, h2] using hmem b (List.mem_cons_of_mem _ hbq3)
        · intro k hk
          rw [hjob k] at hk
          have hgoal : k ∈ q := by
            by_cases h1 : k = bj
            · simp [h1] at hk
            · by_cases h2 : k = j
              · subst h2
                simp [h1] at hk
                have := h.marked k hk
                rw [hq] at this
                exact absurd this hjq
              · simp [h1, h2] at hk
                have := h.marked k hk
                rw [hq] at this
                simpa [h1] using this
          simpa [set_blocked, mark_in_progress, s0] using hgoal
        · rw [hjob bj]; simp
        · intro k
          rw [hjob k]
          by_cases hk : k = bj
          · subst hk; simp
          · by_cases hk2 : k = j
            · subst hk2; simp [hk]
            · have : (s.job k).in_progress ≠ true := fun e => hk2 (hPj k e)
              simpa [hk, hk2] using this
        · have e1 : List.countP (fun b =>
              (((s0.mark_in_progress bj true).set_blocked bj false).job b).fence) q =
              List.countP (fun b => (s.job b).fence) q := by
            apply List.countP_congr
            intro b hbq2
            have h1 : b ≠ bj := fun e => hbq (e ▸ hbq2)
            have h2 : b ≠ j := fun e => hjq (by simp [← e, hbq2])
            rw [hjob b]; simp [h1, h2]
          have e2 : ((s0.mark_in_progress bj true).set_blocked bj false).m_blocked_jobs = q := rfl
          have e3 : ((s0.mark_in_progress bj true).set_blocked bj false).m_has_fence =
              s.m_has_fence := rfl
          rw [e2, e3, e1, hb, hq, List.countP_cons_of_pos _ _ (by simpa using hbf)]
          simp
        · intro e he hfe
          simp [set_blocked, mark_in_progress, s0] at he
          rcases he with he | rfl
          · exact h.log e he hfe
          · simp

/-- A queue splits into its leading run of ordinary jobs and a remainder that
is empty or starts with a fence job. -/
theorem split_at_fence (p : Nat → Bool) (q : List Nat) :
    ∃ pre rest, q = pre ++ rest ∧ (∀ b ∈ pre, p b = false) ∧
      (rest = [] ∨ ∃ f r, rest = f :: r ∧ p f = true) := by
  induction q with
  | nil => exact ⟨[], [], rfl, by simp, Or.inl rfl⟩
  | cons a q ih =>
    by_cases ha : p a = true
    · exact ⟨[], a :: q, rfl, by simp, Or.inr ⟨a, q, rfl, ha⟩⟩
    · obtain ⟨pre, rest, h1, h2, h3⟩ := ih
      refine ⟨a :: pre, rest, by simp [h1], ?_, h3⟩
      intro b hb
      rcases List.mem_cons.mp hb with rfl | hb
      · simpa using ha
      · exact h2 b hb

/-- Completion of the running fence job from a state satisfying `inv`: no
assertion fires and the invariant is kept. -/
theorem inv_job_complete_fence (s : disk_job_fence) (j : Nat) (o : List Nat)
    (h : inv s) (hj : (s.job j).in_progress = true) (hjf : (s.job j).fence = true) :
    ∃ r, s.job_complete j o = .ok r ∧ inv r.2.2 := by
  obtain ⟨hnd, hmem⟩ := h.queue
  have hjq : j ∉ s.m_blocked_jobs := fun hq => by
    have := (hmem j hq).2
    simp [hj] at this
  rcases h.phase with ⟨ha, _, _⟩ | ⟨f, hf1, hf2, hf3⟩
  · have := ha j hj
    simp [hjf] at this
  have hfj : f = j := ((hf2 j).mp hj).symm
  subst hfj
  have hone : s.m_outstanding_jobs = 1 := by
    obtain ⟨P, hP, hc⟩ := h.count
    have : P = {f} := by
      ext k; simp [hP k, hf2 k]
    rw [hc, this]; simp
  have hnone : ∀ k, k ≠ f → (s.job k).in_progress = false := by
    intro k hk
    have := (hf2 k).not.mpr hk
    simpa using this
  obtain ⟨pre, rest, hsplit, hpre, hrest⟩ :=
    split_at_fence (fun b => (s.job b).fence) s.m_blocked_jobs
  rw [hsplit] at hnd hmem hjq hf3
  let s0 : disk_job_fence :=
    { s with
      job := Function.update s.job f { s.job f with in_progress := false }
      m_outstanding_jobs := 0
      m_has_fence := s.m_has_fence - 1 }
  have hs0 : ∀ k, s0.job k = if k = f then { s.job f with in_progress := false } else s.job k := by
    intro k
    by_cases hk : k = f
    · subst hk; simp [s0]
    · simp [s0, Function.update_noteq hk, hk]
  have hfpre : f ∉ pre := fun e => hjq (List.mem_append_left _ e)
  have hfrest : f ∉ rest := fun e => hjq (List.mem_append_right _ e)
  obtain ⟨t, ht, hd⟩ := drain_admits pre rest s0 o 0 (List.nodup_append.mp hnd).1 (by
    intro b hb
    have hb2 : b ∈ pre ++ rest := List.mem_append_left _ hb
    have hbj : b ≠ f := fun e => hfpre (e ▸ hb)
    rw [hs0 b]
    simpa [hbj] using ⟨hpre b hb, (hmem b hb2).2, (hmem b hb2).1⟩)
  have htjob : ∀ k, t.job k =
      if k ∈ pre then ⟨true, false, false⟩
      else if k = f then { s.job f with in_progress := false } else s.job k := by
    intro k
    rw [ht.job k, hs0 k]
    by_cases hk : k ∈ pre
    · have hkf : k ≠ f := fun e => hfpre (e ▸ hk)
      have := hpre k hk
      simp at this
      simp [hk, hkf, this]
    · simp [hk]
  have htprog : ∀ k, (t.job k).in_progress = true ↔ k ∈ pre := by
    intro k
    rw [htjob k]
    by_cases hk : k ∈ pre
    · simp [hk]
    · by_cases hkf : k = f
      · subst hkf; simp [hk]
      · simp [hk, hkf, hnone k hkf]
  have htout : t.m_outstanding_jobs = pre.length := by
    simpa [s0] using ht.outstanding
  have htfence : t.m_has_fence = s.m_has_fence - 1 := ht.has_fence
  have htblocked : ∀ k, (t.job k).blocked = true → k ∈ rest := by
    intro k hk
    rw [htjob k] at hk
    by_cases hkp : k ∈ pre
    · simp [hkp] at hk
    · have hks : (s.job k).blocked = true := by
        by_cases hkf : k = f
        · subst hkf; simpa [hkp] using hk
        · simpa [hkp, hkf] using hk
      have := h.marked k hks
      rw [hsplit] at this
      rcases List.mem_append.mp this with h1 | h1
      · exact absurd h1 hkp
      · exact h1
  have htrest : ∀ b ∈ rest, t.job b = s.job b := by
    intro b hb
    have h1 : b ∉ pre := fun e => (List.nodup_append.mp hnd).2.2 e hb
    have h2 : b ≠ f := fun e => hfrest (e ▸ hb)
    rw [htjob b]; simp [h1, h2]
  have htlog : ∀ e ∈ t.admitted, e.is_fence = true →
      e.outstanding_before = 0 ∧ e.outstanding_after = 1 := by
    obtain ⟨evs, he1, -, he3⟩ := ht.log
    intro e he hfe
    rw [he1] at he
    rcases List.mem_append.mp he with h1 | h1
    · exact h.log e h1 hfe
    · have := (he3 e h1).1
      rw [this] at hfe
      exact absurd hfe (by simp)
  have hcountpre : List.countP (fun b => (s.job b).fence) pre = 0 := by
    rw [List.countP_eq_zero]
    intro b hb
    simpa using hpre b hb
  have hcountrest : List.countP (fun b => (t.job b).fence) rest =
      List.countP (fun b => (s.job b).fence) rest := by
    apply List.countP_congr
    intro b hb
    rw [htrest b hb]
  have hcount : ∃ P : Finset Nat, (∀ k, k ∈ P ↔ (t.job k).in_progress = true) ∧
      t.m_outstanding_jobs = P.card := by
    refine ⟨pre.toFinset, fun k => by simp [htprog k], ?_⟩
    rw [htout, List.toFinset_card_of_nodup (List.nodup_append.mp hnd).1]
  have hjc : s.job_complete f o = drain rest t (o ++ pre) (0 + (pre.length : Int)) := by
    rw [job_complete_fence_eq s f o hj hjf hone]
    show drain s.m_blocked_jobs s0 o 0 = _
    rw [hsplit, hd]
  rcases hrest with hr | ⟨g, r, hr, hg⟩
  · -- the whole queue is released
    subst hr
    refine ⟨(0 + (pre.length : Int), o ++ pre, { t with m_blocked_jobs := [] }), ?_, ?_⟩
    · rw [hjc]; simp [drain]
    · refine ⟨hcount, ⟨by simp, by simp⟩, ?_, Or.inl ⟨?_, ?_, ?_⟩, htlog⟩
      · intro k hk
        exact htblocked k hk
      · intro k hk
        have hkp := (htprog k).mp hk
        show (t.job k).fence = false
        rw [htjob k]; simp [hkp]
      · show t.m_has_fence = _
        rw [htfence, hf3]
        simp [hcountpre]
      · intro b q hbq
        simp at hbq
  · -- the queue holds a fence job `g` behind the ordinary jobs `pre`
    subst hr
    have hndr : (g :: r).Nodup := (List.nodup_append.mp hnd).2.1
    obtain ⟨hgr, hndr2⟩ := List.nodup_cons.mp hndr
    have htg : t.job g = s.job g := htrest g (by simp)
    have hgm := hmem g (by simp)
    have hsum : s.m_has_fence - 1 =
        (List.countP (fun b => (t.job b).fence) (g :: r) : Int) := by
      rw [hcountrest, hf3, List.countP_append, hcountpre]
      simp
    by_cases hnow : t.m_outstanding_jobs = 0 ∧ o ++ pre = []
    · -- nothing is running and nothing goes out: the next fence job is admitted
      obtain ⟨hnow1, hnow2⟩ := hnow
      have hpre0 : pre = [] := (List.append_eq_nil.mp hnow2).2
      let t0 : disk_job_fence := { t with m_blocked_jobs := r }
      have hjob1 : ∀ k, ((t0.mark_in_progress g true).set_blocked g false).job k =
          if k = g then ⟨true, true, false⟩ else t.job k := by
        intro k
        by_cases hk : k = g
        · subst hk
          simp [set_blocked, mark_in_progress, t0, htg, hg]
        · simp [set_blocked, mark_in_progress, t0, Function.update_noteq hk, hk]
      refine ⟨(0 + (pre.length : Int) + 1, o ++ pre ++ [g],
        (t0.mark_in_progress g true).set_blocked g false), ?_, ?_⟩
      · rw [hjc]
        simp [drain, admit_blocked, htg, hg, hgm.1, hgm.2, hnow1, hnow2, t0]
      · refine ⟨⟨{g}, ?_, ?_⟩, ⟨?_, ?_⟩, ?_, Or.inr ⟨g, ?_, ?_, ?_⟩, ?_⟩
        · intro k
          rw [hjob1 k]
          by_cases hk : k = g
          · subst hk; simp
          · have : ¬ (t.job k).in_progress = true := by
              rw [htprog k, hpre0]; simp
            simpa [hk] using this
        · simp [set_blocked, mark_in_progress, t0, hnow1]
        · exact hndr2
        · intro b hb
          have hb2 : b ∈ r := hb
          have hbg : b ≠ g := fun e => hgr (e ▸ hb2)
          rw [hjob1 b, if_neg hbg, htrest b (List.mem_cons_of_mem _ hb2)]
          exact hmem b (by simp [hb2])
        · intro k hk
          rw [hjob1 k] at hk
          by_cases hkg : k = g
          · simp [hkg] at hk
          · rw [if_neg hkg] at hk
            have := htblocked k hk
            show k ∈ r
            simpa [hkg] using this
        · rw [hjob1 g]; simp
        · intro k
          rw [hjob1 k]
          by_cases hk : k = g
          · subst hk; simp
          · have : ¬ (t.job k).in_progress = true := by
              rw [htprog k, hpre0]; simp
            simpa [hk] using this
        · have e1 : List.countP (fun b =>
              (((t0.mark_in_progress g true).set_blocked g false).job b).fence) r =
              List.countP (fun b => (t.job b).fence) r := by
            apply List.countP_congr
            intro b hb
            have hbg : b ≠ g := fun e => hgr (e ▸ hb)
            rw [hjob1 b, if_neg hbg]
          show t.m_has_fence = (List.countP _ r : Int) + 1
          rw [e1, htfence, hsum, List.countP_cons_of_pos _ _ (by rw [htg]; exact hg)]
          simp
        · intro e he hfe
          have he2 : e ∈ t.admitted ++
              [⟨g, (t.job g).fence, t.m_outstanding_jobs, t.m_outstanding_jobs + 1, true⟩] := he
          rcases List.mem_append.mp he2 with h1 | h1
          · exact htlog e h1 hfe
          · simp at h1
            subst h1
            simp [hnow1]
    · -- the fence job goes back to the head of the queue
      refine ⟨(0 + (pre.length : Int), o ++ pre, { t with m_blocked_jobs := g :: r }), ?_, ?_⟩
      · rw [hjc]
        simp only [drain, htg, hg, if_true, if_neg hnow]
      · refine ⟨hcount, ⟨hndr, ?_⟩, ?_, Or.inl ⟨?_, ?_, ?_⟩, htlog⟩
        · intro b hb
          have hb2 : b ∈ g :: r := hb
          show (t.job b).blocked = true ∧ (t.job b).in_progress = false
          rw [htrest b hb2]
          exact hmem b (List.mem_append_right _ hb2)
        · intro k hk
          exact htblocked k hk
        · intro k hk
          have hkp := (htprog k).mp hk
          show (t.job k).fence = false
          rw [htjob k]; simp [hkp]
        · show t.m_has_fence = _
          rw [htfence, hsum]
        · intro b q hbq
          have hbq2 : g :: r = b :: q := hbq
          simp at hbq2
          obtain ⟨rfl, -⟩ := hbq2
          show (t.job g).fence = true
          rw [htg]; exact hg

/-- In a state satisfying `inv`, `job_complete` on a job that is in progress
never stops at an assertion, and the invariant holds afterwards. -/
theorem inv_job_complete (s : disk_job_fence) (j : Nat) (o : List Nat)
    (h : inv s) (hj : (s.job j).in_progress = true) :
    ∃ r, s.job_complete j o = .ok r ∧ inv r.2.2 := by
  by_cases hjf : (s.job j).fence = true
  · exact inv_job_complete_fence s j o h hj hjf
  · exact inv_job_complete_ordinary s j o h hj (by simpa using hjf)

theorem inv_step (s t : disk_job_fence) (c : fence_call) (h : inv s)
    (hpre : call_pre s c) (hs : step s c = .ok t) : inv t := by
  cases c with
  | raise_fence j =>
    cases hr : s.raise_fence j with
    | error l => simp [step, hr, Except.map] at hs
    | ok r =>
      simp [step, hr, Except.map] at hs
      subst hs
      exact inv_raise_fence s r.2 j r.1 h hpre.1 hpre.2 hr
  | is_blocked j =>
    cases hr : s.is_blocked j with
    | error l => simp [step, hr, Except.map] at hs
    | ok r =>
      simp [step, hr, Except.map] at hs
      subst hs
      exact inv_is_blocked s r.2 j r.1 h hpre.1 hpre.2 hr
  | job_complete j o =>
    obtain ⟨r, hr, hinv⟩ := inv_job_complete s j o h hpre
    simp [step, hr, Except.map] at hs
    subst hs
    exact hinv

theorem reachable_inv (s : disk_job_fence) (h : reachable s) : inv s := by
  induction h with
  | init s hi => exact inv_of_initial s hi
  | call s c t _ hpre hs ih => exact inv_step s t c ih hpre hs

theorem reachable_released : reachable released :=
  reachable.call _ (.job_complete 1 []) _ reachable_one_waiting rfl rfl

/-- C1: in every state reached from the initial state by calls respecting the
call preconditions, each admission of a fence job recorded so far happened with
the outstanding counter at 0 right before the job was marked in progress and at
1 right after. -/
theorem C1_fence_admitted_when_idle (s : disk_job_fence) (h : reachable s)
    (e : admission) (he : e ∈ s.admitted) (hf : e.is_fence = true) :
    e.outstanding_before = 0 ∧ e.outstanding_after = 1 :=
  (reachable_inv s h).log e he hf

theorem C1_witness :
    (⟨1, true, 0, 1, false⟩ : admission) ∈ released.admitted ∧
    (⟨1, true, 0, 1, false⟩ : admission).outstanding_before = 0 ∧
    (⟨1, true, 0, 1, false⟩ : admission).outstanding_after = 1 :=
  ⟨by decide, C1_fence_admitted_when_idle released reachable_released
    ⟨1, true, 0, 1, false⟩ (by decide) rfl⟩

/-- C2: in every state reached from the initial state by calls respecting the
call preconditions, the outstanding counter is non-negative and equals the
number of jobs whose in-progress flag is set (a finite set). -/
theorem C2_outstanding_counts_in_progress (s : disk_job_fence) (h : reachable s) :
    0 ≤ s.m_outstanding_jobs ∧
    Set.Finite {k | (s.job k).in_progress = true} ∧
    s.m_outstanding_jobs = (Set.ncard {k | (s.job k).in_progress = true} : Int) := by
  obtain ⟨P, hP, hc⟩ := (reachable_inv s h).count
  have hset : {k | (s.job k).in_progress = true} = (P : Set Nat) := by
    ext k; simp [hP k]
  rw [hset, Set.ncard_coe_Finset]
  exact ⟨by omega, P.finite_toSet, hc⟩

theorem C2_witness :
    0 ≤ one_waiting.m_outstanding_jobs ∧
    Set.Finite {k | (one_waiting.job k).in_progress = true} ∧
    one_waiting.m_outstanding_jobs =
      (Set.ncard {k | (one_waiting.job k).in_progress = true} : Int) :=
  C2_outstanding_counts_in_progress one_waiting reachable_one_waiting

/-- C3: in every state reached from the initial state by calls respecting the
call preconditions, a fence job that is in progress is the only job in progress
and the outstanding counter is 1; hence `job_complete` never stops at the
assertion `m_outstanding_jobs == 0` of line 41. -/
theorem C3_fence_runs_alone (s : disk_job_fence) (h : reachable s) :
    (∀ f, (s.job f).in_progress = true → (s.job f).fence = true →
      s.m_outstanding_jobs = 1 ∧ ∀ k, (s.job k).in_progress = true → k = f) ∧
    (∀ j o, s.job_complete j o ≠ .error 41) := by
  have hinv := reachable_inv s h
  constructor
  · intro f hf1 hf2
    rcases hinv.phase with ⟨ha, _, _⟩ | ⟨g, _, hg2, _⟩
    · have := ha f hf1
      simp [hf2] at this
    · have hfg : f = g := (hg2 f).mp hf1
      subst hfg
      refine ⟨?_, fun k hk => (hg2 k).mp hk⟩
      obtain ⟨P, hP, hc⟩ := hinv.count
      have : P = {f} := by
        ext k; simp [hP k, hg2 k]
      rw [hc, this]; simp
  · intro j o
    by_cases hj : (s.job j).in_progress = true
    · obtain ⟨r, hr, -⟩ := inv_job_complete s j o hinv hj
      rw [hr]; simp
    · simp [job_complete, hj]

theorem C3_witness :
    (∀ f, (one_waiting.job f).in_progress = true → (one_waiting.job f).fence = true →
      one_waiting.m_outstanding_jobs = 1 ∧
      ∀ k, (one_waiting.job k).in_progress = true → k = f) ∧
    (∀ j o, one_waiting.job_complete j o ≠ .error 41) :=
  C3_fence_runs_alone one_waiting reachable_one_waiting

/-- Every reachable state satisfies the representation invariant of the
blocked queue assumed by C7-C10. -/
theorem reachable_queue_ok (s : disk_job_fence) (h : reachable s) : queue_ok s :=
  (reachable_inv s h).queue

/-- C11: when an ordinary job `j` in progress completes and either other jobs
are still outstanding or no fence is raised, `job_complete(j, o)` returns 0 and
leaves `o` as out-queue, clears the in-progress bit of `j`, lowers outstanding
by exactly 1, and leaves the fence counter, the blocked queue and the marks of
every other job (and the other marks of `j`) unchanged. The outstanding counter
counts `j`, hence is positive. -/
theorem C11_ordinary_completion_frame (s : disk_job_fence) (j : Nat) (o : List Nat)
    (hj : (s.job j).in_progress = true) (hjf : (s.job j).fence = false)
    (hpos : 0 < s.m_outstanding_jobs)
    (hc : 0 < s.m_outstanding_jobs - 1 ∨ s.m_has_fence = 0) :
    ∃ t, s.job_complete j o = .ok (0, o, t) ∧
      (t.job j).in_progress = false ∧
      (t.job j).fence = (s.job j).fence ∧ (t.job j).blocked = (s.job j).blocked ∧
      t.m_outstanding_jobs = s.m_outstanding_jobs - 1 ∧
      t.m_has_fence = s.m_has_fence ∧
      t.m_blocked_jobs = s.m_blocked_jobs ∧
      (∀ k, k ≠ j → t.job k = s.job k) := by
  refine ⟨{ s with
      job := Function.update s.job j { s.job j with in_progress := false }
      m_outstanding_jobs := s.m_outstanding_jobs - 1 }, ?_, ?_⟩
  · rcases hc with h1 | h1
    · have h2 : 1 < s.m_outstanding_jobs := by omega
      simp [job_complete, hj, hjf, hpos, h2, not_le.mpr h2]
    · simp [job_complete, hj, hjf, hpos, h1]
  · simp
    intro k hk
    simp [Function.update_noteq hk]

theorem C11_witness :
    ∃ t, two_running.job_complete 0 [7] = .ok (0, [7], t) ∧
      (t.job 0).in_progress = false ∧
      (t.job 0).fence = (two_running.job 0).fence ∧
      (t.job 0).blocked = (two_running.job 0).blocked ∧
      t.m_outstanding_jobs = 2 - 1 ∧
      t.m_has_fence = 1 ∧
      t.m_blocked_jobs = [1] ∧
      (∀ k, k ≠ 0 → t.job k = two_running.job k) :=
  C11_ordinary_completion_frame two_running 0 [7] rfl rfl (by decide) (Or.inl (by decide))

/-- C19: `job_complete(j, o)` on a job whose in-progress bit is not set stops
at the assertion of line 32, the first statement of the function after the
lock, so no member and no job mark has been written; `raise_fence(j)` stops at
the assertion of line 161 when `j` is in progress and at the assertion of line
162 when `j` is already a fence job, both of which precede every assignment. -/
theorem C19_precondition_assertions (s : disk_job_fence) (j : Nat) (o : List Nat) :
    ((s.job j).in_progress = false →
      s.job_complete j o = .error 32 ∧ s.after (.job_complete j o) = s) ∧
    ((s.job j).in_progress = true →
      s.raise_fence j = .error 161 ∧ s.after (.raise_fence j) = s) ∧
    ((s.job j).in_progress = false → (s.job j).fence = true →
      s.raise_fence j = .error 162 ∧ s.after (.raise_fence j) = s) := by
  refine ⟨fun h => ?_, fun h => ?_, fun h1 h2 => ?_⟩
  · simp [job_complete, after, step, h, Except.map]
  · simp [raise_fence, after, step, h, Except.map]
  · simp [raise_fence, after, step, h1, h2, Except.map]

theorem C19_witness :
    idle.job_complete 4 [] = .error 32 ∧
    one_waiting.raise_fence 1 = .error 161 ∧
    released.raise_fence 1 = .error 162 :=
  ⟨((C19_precondition_assertions idle 4 []).1 rfl).1,
    ((C19_precondition_assertions one_waiting 1 []).2.1 rfl).1,
    ((C19_precondition_assertions released 1 []).2.2 rfl rfl).1⟩

/-- What `job_complete` releases from a state satisfying `inv`: a list `rel`
of jobs taken from the head of the blocked queue, in queue order. The count
returned is its length, the out-queue receives it (at the back, or at the front
for the fence job admitted after the last ordinary job), exactly its jobs are
newly in progress, and the history `admitted` grows by one record per job. -/
theorem job_complete_releases (s : disk_job_fence) (j : Nat) (o : List Nat)
    (h : inv s) (hj : (s.job j).in_progress = true) :
    ∃ rel out t, s.job_complete j o = .ok ((rel.length : Int), out, t) ∧
      s.m_blocked_jobs = rel ++ t.m_blocked_jobs ∧
      (out = o ++ rel ∨ out = rel ++ o) ∧
      t.m_outstanding_jobs = s.m_outstanding_jobs - 1 + rel.length ∧
      t.m_has_fence = s.m_has_fence - (if (s.job j).fence = true then 1 else 0) ∧
      (∀ k, (t.job k).in_progress = true ↔
        (k ∈ rel ∨ ((s.job k).in_progress = true ∧ k ≠ j))) ∧
      (∃ evs : List admission, t.admitted = s.admitted ++ evs ∧
        evs.map admission.who = rel ∧ ∀ e ∈ evs, e.from_queue = true) ∧
      t.queued = s.queued := by
  obtain ⟨hnd, hmem⟩ := h.queue
  have hjq : j ∉ s.m_blocked_jobs := fun hq => by
    have := (hmem j hq).2
    simp [hj] at this
  by_cases hjf : (s.job j).fence = true
  · -- the running fence job completes
    rcases h.phase with ⟨ha, _, _⟩ | ⟨f, hf1, hf2, hf3⟩
    · have := ha j hj
      simp [hjf] at this
    have hfj : f = j := ((hf2 j).mp hj).symm
    subst hfj
    have hone : s.m_outstanding_jobs = 1 := by
      obtain ⟨P, hP, hc⟩ := h.count
      have : P = {f} := by
        ext k; simp [hP k, hf2 k]
      rw [hc, this]; simp
    obtain ⟨pre, rest, hsplit, hpre, hrest⟩ :=
      split_at_fence (fun b => (s.job b).fence) s.m_blocked_jobs
    rw [hsplit] at hnd hmem hjq
    let s0 : disk_job_fence :=
      { s with
        job := Function.update s.job f { s.job f with in_progress := false }
        m_outstanding_jobs := 0
        m_has_fence := s.m_has_fence - 1 }
    have hs0 : ∀ k, s0.job k =
        if k = f then { s.job f with in_progress := false } else s.job k := by
      intro k
      by_cases hk : k = f
      · subst hk; simp [s0]
      · simp [s0, Function.update_noteq hk, hk]
    have hfpre : f ∉ pre := fun e => hjq (List.mem_append_left _ e)
    have hfrest : f ∉ rest := fun e => hjq (List.mem_append_right _ e)
    obtain ⟨t, ht, hd⟩ := drain_admits pre rest s0 o 0 (List.nodup_append.mp hnd).1 (by
      intro b hb
      have hb2 : b ∈ pre ++ rest := List.mem_append_left _ hb
      have hbj : b ≠ f := fun e => hfpre (e ▸ hb)
      rw [hs0 b]
      simpa [hbj] using ⟨hpre b hb, (hmem b hb2).2, (hmem b hb2).1⟩)
    have htprog : ∀ k, (t.job k).in_progress = true ↔ k ∈ pre := by
      intro k
      rw [ht.job k, hs0 k]
      by_cases hk : k ∈ pre
      · simp [hk]
      · by_cases hkf : k = f
        · subst hkf; simp [hk]
        · have : ¬ (s.job k).in_progress = true := fun e => hkf ((hf2 k).mp e)
          simpa [hk, hkf] using this
    have htout : t.m_outstanding_jobs = pre.length := by
      simpa [s0] using ht.outstanding
    have hjc : s.job_complete f o = drain rest t (o ++ pre) (0 + (pre.length : Int)) := by
      rw [job_complete_fence_eq s f o hj hjf hone]
      show drain s.m_blocked_jobs s0 o 0 = _
      rw [hsplit, hd]
    have hright : ∀ k, ((s.job k).in_progress = true ∧ k ≠ f) ↔ False := by
      intro k
      constructor
      · rintro ⟨h1, h2⟩
        exact h2 ((hf2 k).mp h1)
      · exact False.elim
    obtain ⟨evs, hev1, hev2, hev3⟩ := ht.log
    have hev1 : t.admitted = s.admitted ++ evs := hev1
    have htq : t.queued = s.queued := ht.queued
    have htf : t.m_has_fence = s.m_has_fence - 1 := ht.has_fence
    rcases hrest with hr | ⟨g, r, hr, hg⟩
    · subst hr
      refine ⟨pre, o ++ pre, { t with m_blocked_jobs := [] }, ?_, ?_, Or.inl rfl, ?_, ?_, ?_,
        ⟨evs, hev1, hev2, fun e he => (hev3 e he).2⟩, htq⟩
      · rw [hjc]; simp [drain]
      · simp [hsplit]
      · simp [htout, hone]
      · simp [htf, hjf]
      · intro k
        simp [htprog k, hright k]
    · subst hr
      have hgm := hmem g (by simp)
      have hgpre : g ∉ pre := fun e => (List.nodup_append.mp hnd).2.2 e (by simp)
      have hgf : g ≠ f := fun e => hfrest (by simp [← e])
      have htg : t.job g = s.job g := by
        rw [ht.job g, hs0 g]; simp [hgpre, hgf]
      by_cases hnow : t.m_outstanding_jobs = 0 ∧ o ++ pre = []
      · obtain ⟨hnow1, hnow2⟩ := hnow
        obtain ⟨ho0, hpre0⟩ := List.append_eq_nil.mp hnow2
        subst hpre0
        subst ho0
        have hevs : evs = [] := by simpa using hev2
        let t0 : disk_job_fence := { t with m_blocked_jobs := r }
        refine ⟨[g], [g], (t0.mark_in_progress g true).set_blocked g false,
          ?_, ?_, Or.inl rfl, ?_, ?_, ?_, ?_, ?_⟩
        · rw [hjc]
          simp [drain, admit_blocked, htg, hg, hgm.1, hgm.2, hnow1, t0]
        · simp [hsplit, set_blocked, mark_in_progress, t0]
        · simp [set_blocked, mark_in_progress, t0, hnow1, hone]
        · simp [set_blocked, mark_in_progress, t0, htf, hjf]
        · intro k
          by_cases hk : k = g
          · subst hk
            simp [set_blocked, mark_in_progress, t0]
          · have := htprog k
            simp at this
            simp [set_blocked, mark_in_progress, t0, Function.update_noteq hk, hk,
              hright k, this]
        · refine ⟨[⟨g, (t.job g).fence, t.m_outstanding_jobs, t.m_outstanding_jobs + 1, true⟩],
            ?_, rfl, by simp⟩
          simp [set_blocked, mark_in_progress, t0, hev1, hevs]
        · simpa [set_blocked, mark_in_progress, t0] using htq
      · refine ⟨pre, o ++ pre, { t with m_blocked_jobs := g :: r }, ?_, ?_, Or.inl rfl, ?_, ?_,
          ?_, ⟨evs, hev1, hev2, fun e he => (hev3 e he).2⟩, htq⟩
        · rw [hjc]
          simp only [drain, htg, hg, if_true, if_neg hnow]
          simp
        · simp [hsplit]
        · simp [htout, hone]
        · simp [htf, hjf]
        · intro k
          simp [htprog k, hright k]
  · -- an ordinary job completes
    have hjf2 : (s.job j).fence = false := by simpa using hjf
    obtain ⟨P, hP, hc⟩ := h.count
    have hjP : j ∈ P := (hP j).mpr hj
    have hpos : 0 < s.m_outstanding_jobs := by
      have := Finset.card_pos.mpr ⟨j, hjP⟩
      omega
    rcases h.phase with ⟨ha, hb, hhead⟩ | ⟨f, hf1, hf2, _⟩
    swap
    · have := (hf2 j).mp hj
      subst this
      simp [hjf2] at hf1
    by_cases hdone : 0 < s.m_outstanding_jobs - 1 ∨ s.m_has_fence = 0
    · refine ⟨[], o, { s with
          job := Function.update s.job j { s.job j with in_progress := false }
          m_outstanding_jobs := s.m_outstanding_jobs - 1 }, ?_, by simp, Or.inl (by simp),
        by simp, by simp [hjf], ?_, ⟨[], by simp⟩, rfl⟩
      · rcases hdone with h1 | h1
        · have h2 : 1 < s.m_outstanding_jobs := by omega
          simp [job_complete, hj, hjf2, hpos, h2, not_le.mpr h2]
        · simp [job_complete, hj, hjf2, hpos, h1]
      · intro k
        by_cases hk : k = j
        · subst hk; simp
        · simp [Function.update_noteq hk, hk]
    · have hone : s.m_outstanding_jobs = 1 := by
        have : ¬ 0 < s.m_outstanding_jobs - 1 := fun h1 => hdone (Or.inl h1)
        omega
      have hfc : s.m_has_fence ≠ 0 := fun h1 => hdone (Or.inr h1)
      cases hq : s.m_blocked_jobs with
      | nil =>
        rw [hq] at hb
        simp at hb
        exact absurd hb hfc
      | cons bj q =>
        have hbf := hhead bj q hq
        rw [hq] at hmem hjq
        obtain ⟨hbb, hbp⟩ := hmem bj (by simp)
        have hbj : bj ≠ j := fun e => hjq (by simp [e])
        let s0 : disk_job_fence :=
          { s with
            job := Function.update s.job j { s.job j with in_progress := false }
            m_outstanding_jobs := 0
            m_blocked_jobs := q }
        refine ⟨[bj], bj :: o, (s0.mark_in_progress bj true).set_blocked bj false,
          ?_, ?_, Or.inr rfl, ?_, ?_, ?_, ?_, rfl⟩
        · simp [job_complete, admit_blocked, hj, hjf2, hone, hfc, hq,
            Function.update_noteq hbj, hbf, hbb, hbp, s0]
        · simp [set_blocked, mark_in_progress, s0]
        · simp [set_blocked, mark_in_progress, s0, hone]
        · simp [set_blocked, mark_in_progress, s0, hjf]
        · intro k
          by_cases hk : k = bj
          · subst hk
            simp [set_blocked, mark_in_progress, s0]
          · by_cases hk2 : k = j
            · subst hk2
              simp [set_blocked, mark_in_progress, s0, Function.update_noteq hk, hk]
            · simp [set_blocked, mark_in_progress, s0, Function.update_noteq hk,
                Function.update_noteq hk2, hk, hk2]
        · refine ⟨[⟨bj, (s0.job bj).fence, 0, 0 + 1, true⟩], ?_, rfl, by simp⟩
          simp [set_blocked, mark_in_progress, s0]

theorem reachable_mixed_queue : reachable mixed_queue :=
  reachable.call _ (.is_blocked 6) _
    (reachable.call _ (.raise_fence 3) _
      (reachable.call _ (.is_blocked 4) _ reachable_one_waiting ⟨rfl, rfl⟩ rfl)
      ⟨rfl, rfl⟩ rfl)
    ⟨rfl, rfl⟩ rfl

/-- C12: in a fence state (a state satisfying the invariant `inv` of the
reachable states), for a job `j` in progress and any out-queue `o`,
`job_complete(j, o)` returns a count `r` that is the number of jobs newly
marked in progress (as a set of jobs and as records of the history), the growth
of the out-queue and the number of jobs taken off the head of the blocked
queue, and outstanding afterwards is outstanding before - 1 + `r`. -/
theorem C12_returned_count (s : disk_job_fence) (j : Nat) (o : List Nat)
    (h : inv s) (hj : (s.job j).in_progress = true) :
    ∃ r out t, s.job_complete j o = .ok (r, out, t) ∧
      (newly_in_progress s t).Finite ∧
      r = ((newly_in_progress s t).ncard : Int) ∧
      (∃ evs : List admission, t.admitted = s.admitted ++ evs ∧ (evs.length : Int) = r) ∧
      (out.length : Int) - o.length = r ∧
      (∃ rel : List Nat, s.m_blocked_jobs = rel ++ t.m_blocked_jobs ∧
        (rel.length : Int) = r) ∧
      (s.m_blocked_jobs.length : Int) - t.m_blocked_jobs.length = r ∧
      t.m_outstanding_jobs = s.m_outstanding_jobs - 1 + r := by
  obtain ⟨rel, out, t, hjc, hq, hout, hcnt, -, hprog, ⟨evs, he1, he2, -⟩, -⟩ :=
    job_complete_releases s j o h hj
  obtain ⟨hnd, hmem⟩ := h.queue
  rw [hq] at hnd hmem
  have hset : newly_in_progress s t = ((rel.toFinset : Finset Nat) : Set Nat) := by
    ext k
    simp only [newly_in_progress, Set.mem_setOf_eq, Finset.mem_coe, List.mem_toFinset]
    rw [hprog k]
    constructor
    · rintro ⟨h1 | ⟨h1, _⟩, h2⟩
      · exact h1
      · simp [h1] at h2
    · intro hk
      exact ⟨Or.inl hk, (hmem k (List.mem_append_left _ hk)).2⟩
  refine ⟨(rel.length : Int), out, t, hjc, ?_, ?_, ⟨evs, he1, ?_⟩, ?_, ⟨rel, hq, rfl⟩, ?_, hcnt⟩
  · rw [hset]; exact Finset.finite_toSet _
  · rw [hset, Set.ncard_coe_Finset,
      List.toFinset_card_of_nodup (List.nodup_append.mp hnd).1]
  · rw [← he2]; simp
  · rcases hout with rfl | rfl <;> simp
  · rw [hq]; simp

theorem C12_witness :
    ∃ r out t, mixed_queue.job_complete 1 [9] = .ok (r, out, t) ∧
      (newly_in_progress mixed_queue t).Finite ∧
      r = ((newly_in_progress mixed_queue t).ncard : Int) ∧
      (∃ evs : List admission, t.admitted = mixed_queue.admitted ++ evs ∧
        (evs.length : Int) = r) ∧
      (out.length : Int) - ([9] : List Nat).length = r ∧
      (∃ rel : List Nat, mixed_queue.m_blocked_jobs = rel ++ t.m_blocked_jobs ∧
        (rel.length : Int) = r) ∧
      (mixed_queue.m_blocked_jobs.length : Int) - t.m_blocked_jobs.length = r ∧
      t.m_outstanding_jobs = mixed_queue.m_outstanding_jobs - 1 + r :=
  C12_returned_count mixed_queue 1 [9] (reachable_inv _ reachable_mixed_queue) rfl

/-- C13: in every state reached from the initial state by calls respecting the
call preconditions, the fence counter is the number of fence jobs that wait in
the blocked queue or are in progress; so it is never negative, `has_fence()`
is true iff that number is positive, and a zero fence counter means an empty
blocked queue. -/
theorem C13_fence_counter (s : disk_job_fence) (h : reachable s) :
    (raised_fences s).Finite ∧
    s.m_has_fence = ((raised_fences s).ncard : Int) ∧
    0 ≤ s.m_has_fence ∧
    (s.has_fence = true ↔ 0 < (raised_fences s).ncard) ∧
    (s.m_has_fence = 0 → s.m_blocked_jobs = []) := by
  have hinv := reachable_inv s h
  obtain ⟨hnd, hmem⟩ := hinv.queue
  have hfl : ((s.m_blocked_jobs.filter (fun b => (s.job b).fence)).toFinset).card =
      s.m_blocked_jobs.countP (fun b => (s.job b).fence) := by
    rw [List.toFinset_card_of_nodup (hnd.filter _), List.countP_eq_length_filter]
  have key : ∃ F : Finset Nat, raised_fences s = (F : Set Nat) ∧
      s.m_has_fence = (F.card : Int) := by
    rcases hinv.phase with ⟨ha, hb, _⟩ | ⟨f, hf1, hf2, hf3⟩
    · refine ⟨(s.m_blocked_jobs.filter (fun b => (s.job b).fence)).toFinset, ?_, ?_⟩
      · ext k
        simp only [raised_fences, Set.mem_setOf_eq, Finset.mem_coe, List.mem_toFinset,
          List.mem_filter]
        constructor
        · rintro ⟨h1, h2 | h2⟩
          · exact ⟨h2, h1⟩
          · have := ha k h2
            simp [h1] at this
        · rintro ⟨h1, h2⟩
          exact ⟨h2, Or.inl h1⟩
      · rw [hfl]; exact hb
    · have hfq : f ∉ (s.m_blocked_jobs.filter (fun b => (s.job b).fence)).toFinset := by
        intro hf
        have hf4 : f ∈ s.m_blocked_jobs := (List.mem_filter.mp (List.mem_toFinset.mp hf)).1
        have := (hmem f hf4).2
        simp [(hf2 f).mpr rfl] at this
      refine ⟨insert f (s.m_blocked_jobs.filter (fun b => (s.job b).fence)).toFinset, ?_, ?_⟩
      · ext k
        simp only [raised_fences, Set.mem_setOf_eq, Finset.coe_insert, Set.mem_insert_iff,
          Finset.mem_coe, List.mem_toFinset, List.mem_filter]
        constructor
        · rintro ⟨h1, h2 | h2⟩
          · exact Or.inr ⟨h2, h1⟩
          · exact Or.inl ((hf2 k).mp h2)
        · rintro (h1 | ⟨h1, h2⟩)
          · subst h1
            exact ⟨hf1, Or.inr ((hf2 k).mpr rfl)⟩
          · exact ⟨h2, Or.inl h1⟩
      · rw [Finset.card_insert_of_not_mem hfq, hfl, hf3]; simp
  obtain ⟨F, hF, hc⟩ := key
  rw [hF, Set.ncard_coe_Finset]
  refine ⟨Finset.finite_toSet _, hc, by omega, ?_, fun h0 => (inv_no_fence s hinv h0).1⟩
  simp only [has_fence, decide_eq_true_eq]
  omega

theorem C13_witness :
    (raised_fences mixed_queue).Finite ∧
    mixed_queue.m_has_fence = ((raised_fences mixed_queue).ncard : Int) ∧
    0 ≤ mixed_queue.m_has_fence ∧
    (mixed_queue.has_fence = true ↔ 0 < (raised_fences mixed_queue).ncard) ∧
    (mixed_queue.m_has_fence = 0 → mixed_queue.m_blocked_jobs = []) :=
  C13_fence_counter mixed_queue reachable_mixed_queue

theorem released_jobs_append (s t : disk_job_fence) (evs : List admission)
    (h : t.admitted = s.admitted ++ evs) (hq : ∀ e ∈ evs, e.from_queue = true) :
    released_jobs t = released_jobs s ++ evs.map admission.who := by
  have : evs.filter (fun e => e.from_queue) = evs :=
    List.filter_eq_self.mpr hq
  simp [released_jobs, h, this]

/-- The queue history is the released jobs followed by the jobs still waiting;
kept by every call made from a state satisfying `inv`. -/
theorem fifo_step (s t : disk_job_fence) (c : fence_call) (h : inv s)
    (hpre : call_pre s c) (hs : step s c = .ok t)
    (hf : s.queued = released_jobs s ++ s.m_blocked_jobs) :
    t.queued = released_jobs t ++ t.m_blocked_jobs := by
  cases c with
  | raise_fence j =>
    obtain ⟨hp, hfl⟩ := hpre
    by_cases h0 : s.m_has_fence = 0 ∧ s.m_outstanding_jobs = 0
    · simp [step, raise_fence, set_fence, h0.1, h0.2, hp, hfl, Except.map] at hs
      subst hs
      simp [released_jobs, mark_in_progress] at hf ⊢
      exact hf
    · by_cases hb : (s.job j).blocked = true
      · simp [step, raise_fence, set_fence, h0, hp, hfl, hb, Except.map] at hs
      · simp [step, raise_fence, set_fence, set_blocked, h0, hp, hfl, hb, Except.map] at hs
        subst hs
        simp [released_jobs] at hf ⊢
        rw [hf, List.append_assoc]
  | is_blocked j =>
    obtain ⟨hp, hfl⟩ := hpre
    by_cases h0 : s.m_has_fence = 0
    · simp [step, is_blocked, h0, hp, Except.map] at hs
      subst hs
      simp [released_jobs, mark_in_progress] at hf ⊢
      exact hf
    · by_cases hb : (s.job j).blocked = true
      · simp [step, is_blocked, h0, hb, Except.map] at hs
      · simp [step, is_blocked, set_blocked, h0, hb, Except.map] at hs
        subst hs
        simp [released_jobs] at hf ⊢
        rw [hf, List.append_assoc]
  | job_complete j o =>
    obtain ⟨rel, out, t2, hjc, hq, -, -, -, -, ⟨evs, he1, he2, he3⟩, hqd⟩ :=
      job_complete_releases s j o h hpre
    simp [step, hjc, Except.map] at hs
    subst hs
    rw [released_jobs_append s t2 evs he1 he3, he2, hqd, hf, hq]
    simp

theorem reachable_fifo (s : disk_job_fence) (h : reachable s) :
    s.queued = released_jobs s ++ s.m_blocked_jobs := by
  induction h with
  | init s hi =>
    obtain ⟨-, -, h3, -, h5, h6⟩ := hi
    simp [released_jobs, h3, h5, h6]
  | call s c t hr hpre hs ih => exact fifo_step s t c (reachable_inv s hr) hpre hs ih

/-- C14: in every state reached from the initial state by calls respecting the
call preconditions, the jobs released from the blocked queue so far, in the
order in which they were marked in progress, are an initial segment of the jobs placed in
the blocked queue so far, in arrival order; the remainder is the present
blocked queue. So the i-th job released is the i-th job queued. -/
theorem C14_fifo_release (s : disk_job_fence) (h : reachable s) :
    s.queued = released_jobs s ++ s.m_blocked_jobs ∧
    released_jobs s <+: s.queued ∧
    ∀ i, i < (released_jobs s).length → (released_jobs s)[i]? = s.queued[i]? := by
  have hf := reachable_fifo s h
  refine ⟨hf, ⟨s.m_blocked_jobs, hf.symm⟩, ?_⟩
  intro i hi
  rw [hf, List.getElem?_append_left hi]

/-- The state after the running fence job of `mixed_queue` has completed:
jobs 2 and 4 were released, fence job 3 and job 6 still wait. -/
theorem reachable_mixed_released :
    reachable (mixed_queue.after (.job_complete 1 [])) :=
  reachable.call _ (.job_complete 1 []) _ reachable_mixed_queue rfl rfl

theorem C14_witness :
    (mixed_queue.after (.job_complete 1 [])).queued = [2, 4, 3, 6] ∧
    released_jobs (mixed_queue.after (.job_complete 1 [])) = [2, 4] ∧
    released_jobs (mixed_queue.after (.job_complete 1 [])) <+:
      (mixed_queue.after (.job_complete 1 [])).queued :=
  ⟨rfl, rfl, (C14_fifo_release _ reachable_mixed_released).2.1⟩

end disk_job_fence

namespace disk_job_pool

theorem count_jobs_eq (p : disk_job_pool) (j : List Nat) :
    ∀ c : Int × Int, count_jobs p j c =
      (c.1 + j.countP (fun x => (p.job x).action = .read),
       c.2 + j.countP (fun x => (p.job x).action = .write)) := by
  induction j with
  | nil => intro c; simp [count_jobs]
  | cons x rest ih =>
    intro c
    by_cases h1 : (p.job x).action = .read
    · simp [count_jobs, h1, ih]; ring
    · by_cases h2 : (p.job x).action = .write
      · simp [count_jobs, h1, h2, ih]; ring
      · simp [count_jobs, h1, h2, ih]

/-- C15: for every pool state and every batch `j` of `k` jobs, `free_jobs`
lowers `m_jobs_in_use` by exactly `k`, `m_read_jobs` by the number of read jobs
of the batch and `m_write_jobs` by the number of write jobs of the batch; a
batch without read and write jobs changes neither of these two counters, and
the empty batch changes nothing. -/
theorem C15_free_jobs_counters (p : disk_job_pool) (j : List Nat) :
    (p.free_jobs j).m_jobs_in_use = p.m_jobs_in_use - j.length ∧
    (p.free_jobs j).m_read_jobs =
      p.m_read_jobs - j.countP (fun x => (p.job x).action = .read) ∧
    (p.free_jobs j).m_write_jobs =
      p.m_write_jobs - j.countP (fun x => (p.job x).action = .write) ∧
    ((∀ x ∈ j, (p.job x).action ≠ .read ∧ (p.job x).action ≠ .write) →
      (p.free_jobs j).m_read_jobs = p.m_read_jobs ∧
      (p.free_jobs j).m_write_jobs = p.m_write_jobs) ∧
    (j = [] → p.free_jobs j = p) := by
  have main : (p.free_jobs j).m_jobs_in_use = p.m_jobs_in_use - j.length ∧
      (p.free_jobs j).m_read_jobs =
        p.m_read_jobs - j.countP (fun x => (p.job x).action = .read) ∧
      (p.free_jobs j).m_write_jobs =
        p.m_write_jobs - j.countP (fun x => (p.job x).action = .write) := by
    cases j with
    | nil => simp [free_jobs]
    | cons x rest => simp [free_jobs, count_jobs_eq]
  refine ⟨main.1, main.2.1, main.2.2, ?_, ?_⟩
  · intro hall
    have h1 : j.countP (fun x => decide ((p.job x).action = .read)) = 0 := by
      rw [List.countP_eq_zero]
      intro x hx
      simpa using (hall x hx).1
    have h2 : j.countP (fun x => decide ((p.job x).action = .write)) = 0 := by
      rw [List.countP_eq_zero]
      intro x hx
      simpa using (hall x hx).2
    rw [main.2.1, main.2.2, h1, h2]
    simp
  · intro hj
    simp [free_jobs, hj]

theorem C15_witness :
    (three_in_use.free_jobs [3, 4, 5]).m_jobs_in_use = 3 - 3 ∧
    (three_in_use.free_jobs [3, 4, 5]).m_read_jobs = 1 - 1 ∧
    (three_in_use.free_jobs [3, 4, 5]).m_write_jobs = 1 - 1 ∧
    (three_in_use.free_jobs [5]).m_read_jobs = 1 ∧
    (three_in_use.free_jobs [5]).m_write_jobs = 1 :=
  ⟨(C15_free_jobs_counters three_in_use [3, 4, 5]).1,
    (C15_free_jobs_counters three_in_use [3, 4, 5]).2.1,
    (C15_free_jobs_counters three_in_use [3, 4, 5]).2.2.1,
    ((C15_free_jobs_counters three_in_use [5]).2.2.2.1 (by decide)).1,
    ((C15_free_jobs_counters three_in_use [5]).2.2.2.1 (by decide)).2⟩

/-- A returning `free_job(j)` has cleared the `in_use` mark of `j`. -/
theorem free_job_ok_clears (p q : disk_job_pool) (j : Nat)
    (h : p.free_job (some j) = .ok q) : (q.job j).in_use = false := by
  by_cases hu : (p.job j).in_use = true
  · simp only [free_job, hu] at h
    cases ha : (p.job j).action <;> simp [ha] at h <;> subst h <;> simp
  · simp [free_job, hu] at h

/-- C16: for every pool state and every job `j` marked in use, `free_job(j)`
lowers `m_jobs_in_use` by exactly 1, lowers `m_read_jobs` by 1 iff `j` is a
read job and `m_write_jobs` by 1 iff `j` is a write job, and leaves each of the
two counters unchanged otherwise. -/
theorem C16_free_job_counters (p : disk_job_pool) (j : Nat)
    (hu : (p.job j).in_use = true) :
    ∃ q, p.free_job (some j) = .ok q ∧
      q.m_jobs_in_use = p.m_jobs_in_use - 1 ∧
      q.m_read_jobs = p.m_read_jobs - (if (p.job j).action = .read then 1 else 0) ∧
      q.m_write_jobs = p.m_write_jobs - (if (p.job j).action = .write then 1 else 0) ∧
      (q.job j).in_use = false ∧ (∀ k, k ≠ j → q.job k = p.job k)  := by
  cases ha : (p.job j).action with
  | read =>
    refine ⟨_, by simp only [free_job, hu]; rfl, ?_⟩
    simp [ha]
    intro k hk
    simp [Function.update_noteq hk]
  | write =>
    refine ⟨_, by simp only [free_job, hu]; rfl, ?_⟩
    simp [ha]
    intro k hk
    simp [Function.update_noteq hk]
  | other n =>
    refine ⟨_, by simp only [free_job, hu]; rfl, ?_⟩
    simp [ha]
    intro k hk
    simp [Function.update_noteq hk]

theorem C16_witness :
    ∃ q, three_in_use.free_job (some 3) = .ok q ∧
      q.m_jobs_in_use = 3 - 1 ∧
      q.m_read_jobs = 1 - (if (three_in_use.job 3).action = .read then 1 else 0) ∧
      q.m_write_jobs = 1 - (if (three_in_use.job 3).action = .write then 1 else 0) ∧
      (q.job 3).in_use = false ∧ (∀ k, k ≠ 3 → q.job k = three_in_use.job k) :=
  C16_free_job_counters three_in_use 3 rfl

/-- C17: `free_job(j)` on a job whose `in_use` mark is not set stops at the
assertion of line 35, before any counter is written; a `free_job(j)` that
returns has cleared the mark, so a second `free_job(j)` on the resulting pool
stops at that assertion too. -/
theorem C17_free_job_not_in_use (p : disk_job_pool) (j : Nat) :
    ((p.job j).in_use = false →
      p.free_job (some j) = .error 35 ∧ p.after_free_job j = p) ∧
    (∀ q, p.free_job (some j) = .ok q →
      q.free_job (some j) = .error 35 ∧ q.after_free_job j = q) := by
  have key : ∀ r : disk_job_pool, (r.job j).in_use = false →
      r.free_job (some j) = .error 35 ∧ r.after_free_job j = r := by
    intro r hr
    have : r.free_job (some j) = .error 35 := by simp [free_job, hr]
    exact ⟨this, by simp [after_free_job, this]⟩
  refine ⟨key p, ?_⟩
  intro q hq
  exact key q (free_job_ok_clears p q j hq)

theorem C17_witness :
    (three_in_use.free_job (some 9) = .error 35 ∧
      three_in_use.after_free_job 9 = three_in_use) ∧
    ((three_in_use.after_free_job 3).free_job (some 3) = .error 35 ∧
      (three_in_use.after_free_job 3).after_free_job 3 = three_in_use.after_free_job 3) :=
  ⟨(C17_free_job_not_in_use three_in_use 9).1 rfl,
    (C17_free_job_not_in_use three_in_use 3).2 (three_in_use.after_free_job 3) rfl⟩

/-- C18 fails on the code: `free_jobs` contains no assertion. Job 3 is freed
by `free_job`, which clears its `in_use` mark; a following `free_jobs` on the
batch `[3]` returns and lowers `m_jobs_in_use` from 2 to 1 and `m_read_jobs`
from 0 to -1. A batch holding job 4 (in use) twice returns too and lowers
`m_jobs_in_use` and `m_write_jobs` by 2. -/
theorem C18_free_jobs_unchecked :
    ((three_in_use.after_free_job 3).job 3).in_use = false ∧
    (three_in_use.after_free_job 3).m_jobs_in_use = 2 ∧
    (three_in_use.after_free_job 3).m_read_jobs = 0 ∧
    ((three_in_use.after_free_job 3).free_jobs [3]).m_jobs_in_use = 1 ∧
    ((three_in_use.after_free_job 3).free_jobs [3]).m_read_jobs = -1 ∧
    (three_in_use.free_jobs [4, 4]).m_jobs_in_use = 1 ∧
    (three_in_use.free_jobs [4, 4]).m_write_jobs = -1 := by
  refine ⟨rfl, rfl, rfl, rfl, rfl, rfl, rfl⟩

end disk_job_pool

namespace file_view_pool

/-- C20: for a pool of capacity `c ≥ 1` holding exactly `c` entries and a key
not in the pool, an `open_file` whose mapping is opened successfully returns
the new mapping, removes exactly the least recently used entry (the last one)
and inserts the new entry as the most recently used one (the first), so the
pool holds exactly `c` entries again, which is at most `size_limit()`. -/
theorem C20_open_file_evicts_lru (p : file_view_pool) (st file_index : Nat)
    (m : open_mode_t) (now h : Nat)
    (hc : 1 ≤ p.m_size) (hfull : (p.m_files.length : Int) = p.m_size)
    (hmiss : ∀ e ∈ p.m_files, e.key ≠ (st, file_index)) :
    ∃ keep lru,
      p.m_files = keep ++ [lru] ∧
      p.open_file st file_index m now (some h) =
        (some h, { p with m_files := ⟨(st, file_index), h, now, m⟩ :: keep }) ∧
      (⟨(st, file_index), h, now, m⟩ :: keep).length = p.m_files.length ∧
      (((p.opened st file_index m now (some h)).m_files.length : Int) ≤
        (p.opened st file_index m now (some h)).size_limit) := by
  have hne : p.m_files ≠ [] := by
    intro h0
    rw [h0] at hfull
    simp at hfull
    omega
  have hsplit : p.m_files = p.m_files.dropLast ++ [p.m_files.getLast hne] :=
    (List.dropLast_append_getLast hne).symm
  have hlast : p.m_files.getLast? = some (p.m_files.getLast hne) :=
    List.getLast?_eq_getLast _ hne
  have hfind : p.m_files.find? (fun e => decide (e.key = (st, file_index))) = none := by
    rw [List.find?_eq_none]
    intro e he
    simpa using hmiss e he
  have hopen : p.open_file st file_index m now (some h) =
      (some h, { p with m_files := ⟨(st, file_index), h, now, m⟩ :: p.m_files.dropLast }) := by
    simp [open_file, hfind, hfull, remove_oldest, hlast]
  have hpos : 0 < p.m_files.length := List.length_pos.mpr hne
  have hl : p.m_files.dropLast.length = p.m_files.length - 1 := List.length_dropLast _
  refine ⟨p.m_files.dropLast, p.m_files.getLast hne, hsplit, hopen, ?_, ?_⟩
  · rw [List.length_cons, hl]
    omega
  · simp only [opened, hopen, size_limit]
    rw [List.length_cons, hl, ← hfull]
    omega

theorem C20_witness :
    full_two.m_files.map file_entry.key = [(7, 1), (7, 0)] ∧
    (full_two.opened 7 2 .read_only 12 (some 102)).m_files.map file_entry.key =
      [(7, 2), (7, 1)] ∧
    ∃ keep lru,
      full_two.m_files = keep ++ [lru] ∧
      full_two.open_file 7 2 .read_only 12 (some 102) =
        (some 102, { full_two with m_files := ⟨(7, 2), 102, 12, .read_only⟩ :: keep }) ∧
      (⟨(7, 2), 102, 12, .read_only⟩ :: keep).length = full_two.m_files.length ∧
      (((full_two.opened 7 2 .read_only 12 (some 102)).m_files.length : Int) ≤
        (full_two.opened 7 2 .read_only 12 (some 102)).size_limit) :=
  ⟨rfl, rfl, C20_open_file_evicts_lru full_two 7 2 .read_only 12 102 (by decide) (by decide)
    (by decide)⟩

end file_view_pool

namespace disk_job_fence

theorem reachable_fence_pending : reachable fence_pending :=
  reachable.call _ (.is_blocked 2) _
    (reachable.call _ (.raise_fence 1) _
      (reachable.call _ (.is_blocked 0) _
        (reachable.init idle ⟨rfl, rfl, rfl, fun _ => ⟨rfl, rfl⟩, rfl, rfl⟩)
        ⟨rfl, rfl⟩ rfl)
      ⟨rfl, rfl⟩ rfl)
    ⟨rfl, rfl⟩ rfl

/-- C22: in every state reached from the initial state by calls respecting the
call preconditions, if no fence job is in progress the blocked queue is empty
or starts with a fence job. So when an ordinary job that is the only
outstanding one completes while the fence counter is positive, the blocked
queue is non-empty and its head is a fence job, and `job_complete` never stops
at the assertions of lines 100 and 104. -/
theorem C22_fence_heads_queue (s : disk_job_fence) (h : reachable s) :
    ((∀ k, (s.job k).in_progress = true → (s.job k).fence = false) →
      s.m_blocked_jobs = [] ∨
      ∃ b q, s.m_blocked_jobs = b :: q ∧ (s.job b).fence = true) ∧
    (∀ j, (s.job j).in_progress = true → (s.job j).fence = false →
      s.m_outstanding_jobs = 1 → 0 < s.m_has_fence →
      ∃ b q, s.m_blocked_jobs = b :: q ∧ (s.job b).fence = true) ∧
    (∀ j o, s.job_complete j o ≠ .error 100 ∧ s.job_complete j o ≠ .error 104) := by
  have hinv := reachable_inv s h
  have part1 : (∀ k, (s.job k).in_progress = true → (s.job k).fence = false) →
      s.m_blocked_jobs = [] ∨
      ∃ b q, s.m_blocked_jobs = b :: q ∧ (s.job b).fence = true := by
    intro hno
    rcases hinv.phase with ⟨_, _, hhead⟩ | ⟨f, hf1, hf2, _⟩
    · cases hq : s.m_blocked_jobs with
      | nil => exact Or.inl rfl
      | cons b q => exact Or.inr ⟨b, q, rfl, hhead b q hq⟩
    · have := hno f ((hf2 f).mpr rfl)
      simp [hf1] at this
  refine ⟨part1, ?_, ?_⟩
  · intro j hj hjf _ hfc
    have hno : ∀ k, (s.job k).in_progress = true → (s.job k).fence = false := by
      rcases hinv.phase with ⟨ha, _, _⟩ | ⟨f, hf1, hf2, _⟩
      · exact ha
      · have := (hf2 j).mp hj
        subst this
        simp [hjf] at hf1
    rcases part1 hno with hq | hq
    · exfalso
      rcases hinv.phase with ⟨_, hb, _⟩ | ⟨f, hf1, hf2, _⟩
      · rw [hq] at hb
        simp at hb
        omega
      · have := hno f ((hf2 f).mpr rfl)
        simp [hf1] at this
    · exact hq
  · intro j o
    by_cases hj : (s.job j).in_progress = true
    · obtain ⟨r, hr, -⟩ := inv_job_complete s j o hinv hj
      rw [hr]; simp
    · simp [job_complete, hj]

theorem C22_witness :
    ((∀ k, (fence_pending.job k).in_progress = true → (fence_pending.job k).fence = false) →
      fence_pending.m_blocked_jobs = [] ∨
      ∃ b q, fence_pending.m_blocked_jobs = b :: q ∧ (fence_pending.job b).fence = true) ∧
    (∀ j, (fence_pending.job j).in_progress = true → (fence_pending.job j).fence = false →
      fence_pending.m_outstanding_jobs = 1 → 0 < fence_pending.m_has_fence →
      ∃ b q, fence_pending.m_blocked_jobs = b :: q ∧ (fence_pending.job b).fence = true) ∧
    (∀ j o, fence_pending.job_complete j o ≠ .error 100 ∧
      fence_pending.job_complete j o ≠ .error 104) :=
  C22_fence_heads_queue fence_pending reachable_fence_pending

end disk_job_fence

namespace disk_job_fence

/-- The loop of `job_complete` never lowers the outstanding counter. -/
theorem drain_outstanding_mono (q : List Nat) :
    ∀ (s : disk_job_fence) (jobs : List Nat) (ret : Int)
      (r : Int × List Nat × disk_job_fence),
      drain q s jobs ret = .ok r → s.m_outstanding_jobs ≤ r.2.2.m_outstanding_jobs := by
  induction q with
  | nil =>
    intro s jobs ret r hr
    simp [drain] at hr
    subst hr
    simp
  | cons b q ih =>
    intro s jobs ret r hr
    by_cases hb : (s.job b).fence = true
    · by_cases hnow : s.m_outstanding_jobs = 0 ∧ jobs = []
      · by_cases h1 : (s.job b).in_progress = true
        · simp [drain, admit_blocked, hb, hnow, h1] at hr
        · by_cases h2 : (s.job b).blocked = true
          · simp [drain, admit_blocked, hb, hnow.1, hnow.2, h1, h2] at hr
            subst hr
            simp [set_blocked, mark_in_progress, hnow.1]
          · simp [drain, admit_blocked, hb, hnow, h1, h2] at hr
      · simp only [drain, hb, if_true, if_neg hnow] at hr
        cases hr
        simp
    · by_cases h1 : (s.job b).in_progress = true
      · simp [drain, admit_blocked, hb, h1] at hr
      · by_cases h2 : (s.job b).blocked = true
        · simp [drain, admit_blocked, hb, h1, h2] at hr
          have := ih _ _ _ r hr
          simp [set_blocked, mark_in_progress] at this
          omega
        · simp [drain, admit_blocked, hb, h1, h2] at hr

/-- With an empty out-queue, `job_complete` from a state satisfying `inv`
leaves the fence counter at zero or some job in progress. -/
theorem job_complete_no_stall (s : disk_job_fence) (j : Nat) (h : inv s)
    (hj : (s.job j).in_progress = true)
    (r : Int × List Nat × disk_job_fence) (hr : s.job_complete j [] = .ok r) :
    r.2.2.m_has_fence = 0 ∨ 0 < r.2.2.m_outstanding_jobs := by
  obtain ⟨hnd, hmem⟩ := h.queue
  have hjq : j ∉ s.m_blocked_jobs := fun hq => by
    have := (hmem j hq).2
    simp [hj] at this
  by_cases hjf : (s.job j).fence = true
  · rcases h.phase with ⟨ha, _, _⟩ | ⟨f, hf1, hf2, hf3⟩
    · have := ha j hj
      simp [hjf] at this
    have hfj : f = j := ((hf2 j).mp hj).symm
    subst hfj
    have hone : s.m_outstanding_jobs = 1 := by
      obtain ⟨P, hP, hc⟩ := h.count
      have : P = {f} := by
        ext k; simp [hP k, hf2 k]
      rw [hc, this]; simp
    rw [job_complete_fence_eq s f [] hj hjf hone] at hr
    cases hq : s.m_blocked_jobs with
    | nil =>
      rw [hq] at hr hf3
      simp [drain] at hr
      subst hr
      left
      simp [hf3]
    | cons b q =>
      rw [hq] at hr hmem hjq
      obtain ⟨hbb, hbp⟩ := hmem b (by simp)
      have hbf : b ≠ f := fun e => hjq (by simp [e])
      right
      by_cases hb : (s.job b).fence = true
      · simp [drain, admit_blocked, Function.update_noteq hbf, hb, hbb, hbp] at hr
        subst hr
        simp [set_blocked, mark_in_progress]
      · simp [drain, admit_blocked, Function.update_noteq hbf, hb, hbb, hbp] at hr
        have := drain_outstanding_mono _ _ _ _ r hr
        simp [set_blocked, mark_in_progress] at this
        omega
  · have hjf2 : (s.job j).fence = false := by simpa using hjf
    obtain ⟨P, hP, hc⟩ := h.count
    have hpos : 0 < s.m_outstanding_jobs := by
      have := Finset.card_pos.mpr ⟨j, (hP j).mpr hj⟩
      omega
    by_cases hdone : 0 < s.m_outstanding_jobs - 1 ∨ s.m_has_fence = 0
    · rcases hdone with h1 | h1
      · have h2 : 1 < s.m_outstanding_jobs := by omega
        simp [job_complete, hj, hjf2, hpos, h2, not_le.mpr h2] at hr
        subst hr
        right
        simpa using h2
      · simp [job_complete, hj, hjf2, hpos, h1] at hr
        subst hr
        left
        rfl
    · have hone : s.m_outstanding_jobs = 1 := by
        have : ¬ 0 < s.m_outstanding_jobs - 1 := fun h1 => hdone (Or.inl h1)
        omega
      have hfc : s.m_has_fence ≠ 0 := fun h1 => hdone (Or.inr h1)
      right
      cases hq : s.m_blocked_jobs with
      | nil => simp [job_complete, hj, hjf2, hone, hfc, hq] at hr
      | cons b q =>
        rw [hq] at hmem hjq
        obtain ⟨hbb, hbp⟩ := hmem b (by simp)
        have hbj : b ≠ j := fun e => hjq (by simp [e])
        by_cases hb : (s.job b).fence = true
        · simp [job_complete, admit_blocked, hj, hjf2, hone, hfc, hq,
            Function.update_noteq hbj, hb, hbb, hbp] at hr
          subst hr
          simp [set_blocked, mark_in_progress]
        · simp [job_complete, admit_blocked, hj, hjf2, hone, hfc, hq,
            Function.update_noteq hbj, hb] at hr

theorem reachable_of_empty_out (s : disk_job_fence) (h : reachable_empty_out s) :
    reachable s := by
  induction h with
  | init s hi => exact reachable.init s hi
  | call s c t _ hpre _ hs ih => exact reachable.call s c t ih hpre hs

theorem no_stall_step (s t : disk_job_fence) (c : fence_call) (h : inv s)
    (hpre : call_pre s c) (he : empty_out c) (hs : step s c = .ok t)
    (hn : s.m_has_fence = 0 ∨ 0 < s.m_outstanding_jobs) :
    t.m_has_fence = 0 ∨ 0 < t.m_outstanding_jobs := by
  have hnonneg : 0 ≤ s.m_outstanding_jobs := by
    obtain ⟨P, -, hc⟩ := h.count
    omega
  cases c with
  | raise_fence j =>
    obtain ⟨hp, hfl⟩ := hpre
    by_cases h0 : s.m_has_fence = 0 ∧ s.m_outstanding_jobs = 0
    · simp [step, raise_fence, set_fence, h0.1, h0.2, hp, hfl, Except.map] at hs
      subst hs
      right
      simp [mark_in_progress]
    · by_cases hb : (s.job j).blocked = true
      · simp [step, raise_fence, set_fence, h0, hp, hfl, hb, Except.map] at hs
      · simp [step, raise_fence, set_fence, set_blocked, h0, hp, hfl, hb, Except.map] at hs
        subst hs
        right
        show 0 < s.m_outstanding_jobs
        rcases hn with h1 | h1
        · have : s.m_outstanding_jobs ≠ 0 := fun h2 => h0 ⟨h1, h2⟩
          omega
        · exact h1
  | is_blocked j =>
    obtain ⟨hp, hfl⟩ := hpre
    by_cases h0 : s.m_has_fence = 0
    · simp [step, is_blocked, h0, hp, Except.map] at hs
      subst hs
      left
      simpa [mark_in_progress] using h0
    · by_cases hb : (s.job j).blocked = true
      · simp [step, is_blocked, h0, hb, Except.map] at hs
      · simp [step, is_blocked, set_blocked, h0, hb, Except.map] at hs
        subst hs
        right
        show 0 < s.m_outstanding_jobs
        rcases hn with h1 | h1
        · exact absurd h1 h0
        · exact h1
  | job_complete j o =>
    have ho : o = [] := he
    subst ho
    cases hr : s.job_complete j [] with
    | error l => simp [step, hr, Except.map] at hs
    | ok r =>
      simp [step, hr, Except.map] at hs
      subst hs
      exact job_complete_no_stall s j h hpre r hr

theorem reachable_no_stall (s : disk_job_fence) (h : reachable_empty_out s) :
    s.m_has_fence = 0 ∨ 0 < s.m_outstanding_jobs := by
  induction h with
  | init s hi => exact Or.inl hi.1
  | call s c t hr hpre he hs ih =>
    exact no_stall_step s t c (reachable_inv s (reachable_of_empty_out s hr)) hpre he hs ih

theorem reachable_empty_out_fence_admitted : reachable_empty_out fence_admitted :=
  reachable_empty_out.call _ (.job_complete 0 []) _
    (reachable_empty_out.call _ (.is_blocked 2) _
      (reachable_empty_out.call _ (.raise_fence 1) _
        (reachable_empty_out.call _ (.is_blocked 0) _
          (reachable_empty_out.init idle ⟨rfl, rfl, rfl, fun _ => ⟨rfl, rfl⟩, rfl, rfl⟩)
          ⟨rfl, rfl⟩ trivial rfl)
        ⟨rfl, rfl⟩ trivial rfl)
      ⟨rfl, rfl⟩ trivial rfl)
    rfl rfl rfl

/-- C23: in every state reached from the initial state by calls that respect
the call preconditions and give every `job_complete` an empty out-queue, a
positive fence counter implies a positive outstanding counter, and so does a
non-empty blocked queue: queued jobs always have a running job whose
completion can release them. -/
theorem C23_no_stalled_fence (s : disk_job_fence) (h : reachable_empty_out s) :
    (0 < s.m_has_fence → 0 < s.m_outstanding_jobs) ∧
    (s.m_blocked_jobs ≠ [] → 0 < s.m_outstanding_jobs) := by
  have hn := reachable_no_stall s h
  have hinv := reachable_inv s (reachable_of_empty_out s h)
  refine ⟨fun hf => ?_, fun hq => ?_⟩
  · rcases hn with h1 | h1
    · omega
    · exact h1
  · rcases hn with h1 | h1
    · exact absurd (inv_no_fence s hinv h1).1 hq
    · exact h1

theorem C23_witness :
    (0 < fence_admitted.m_has_fence → 0 < fence_admitted.m_outstanding_jobs) ∧
    (fence_admitted.m_blocked_jobs ≠ [] → 0 < fence_admitted.m_outstanding_jobs) :=
  C23_no_stalled_fence fence_admitted reachable_empty_out_fence_admitted

/-- The restriction to empty out-queues is needed: after `raise_fence(1)`,
`raise_fence(3)` and `job_complete(1, [5])` the fence counter is 1, fence job 3
waits, and no job is in progress. -/
theorem stall_with_nonempty_out :
    reachable (two_fences.after (.job_complete 1 [5])) ∧
    (two_fences.after (.job_complete 1 [5])).m_has_fence = 1 ∧
    (two_fences.after (.job_complete 1 [5])).m_blocked_jobs = [3] ∧
    (two_fences.after (.job_complete 1 [5])).m_outstanding_jobs = 0 :=
  ⟨reachable.call _ (.job_complete 1 [5]) _
      (reachable.call _ (.raise_fence 3) _
        (reachable.call _ (.raise_fence 1) _
          (reachable.init idle ⟨rfl, rfl, rfl, fun _ => ⟨rfl, rfl⟩, rfl, rfl⟩)
          ⟨rfl, rfl⟩ rfl)
        ⟨rfl, rfl⟩ rfl)
      rfl rfl,
    rfl, rfl, rfl⟩

end disk_job_fence

namespace file_view_pool

theorem release_entries_kept (st : Nat) (l : List file_entry) :
    (release_entries st l).2 = l.filter (fun e => decide (e.key.1 ≠ st)) := by
  induction l with
  | nil => simp [release_entries]
  | cons e rest ih =>
    by_cases he : e.key.1 = st
    · simp [release_entries, he, ih]
    · simp [release_entries, he, ih]

/-- C21: after `release(st)` the pool holds no entry of storage `st`; every
entry of another storage is still present, unchanged in key, mapping, mode and
last-use time, and these entries are in the same relative recency order as
before: the entries left are exactly the entries of the other storages, in
their old order, a sublist of the old recency list. The capacity is
unchanged. -/
theorem C21_release_storage (p : file_view_pool) (st : Nat) :
    (∀ e ∈ (p.release st).2.m_files, e.key.1 ≠ st) ∧
    (∀ e ∈ p.m_files, e.key.1 ≠ st → e ∈ (p.release st).2.m_files) ∧
    (p.release st).2.m_files = p.m_files.filter (fun e => decide (e.key.1 ≠ st)) ∧
    List.Sublist (p.release st).2.m_files p.m_files ∧
    (p.release st).2.m_size = p.m_size := by
  have hk : (p.release st).2.m_files =
      p.m_files.filter (fun e => decide (e.key.1 ≠ st)) := by
    simp only [release]
    exact release_entries_kept st p.m_files
  refine ⟨?_, ?_, hk, ?_, rfl⟩
  · intro e he
    rw [hk] at he
    simpa using (List.mem_filter.mp he).2
  · intro e he hne
    rw [hk]
    exact List.mem_filter.mpr ⟨he, by simpa using hne⟩
  · rw [hk]
    exact List.filter_sublist _

theorem C21_witness :
    (three_storages.release 7).2.m_files =
      [⟨(8, 0), 102, 12, .read_only⟩, ⟨(9, 3), 103, 10, .read_only⟩] ∧
    (three_storages.release 7).1 = [101, 100] ∧
    (∀ e ∈ (three_storages.release 7).2.m_files, e.key.1 ≠ 7) ∧
    List.Sublist (three_storages.release 7).2.m_files three_storages.m_files :=
  ⟨by decide, by decide, (C21_release_storage three_storages 7).1,
    (C21_release_storage three_storages 7).2.2.2.1⟩

end file_view_pool

namespace disk_job_pool

/-- A returning `free_job(j)`: counters afterwards, and the job objects keep
their kind; only the `in_use` mark of `j` changes. -/
theorem free_job_returns (p : disk_job_pool) (j : Nat)
    (hu : (p.job j).in_use = true) :
    ∃ q, p.free_job (some j) = .ok q ∧
      q.m_jobs_in_use = p.m_jobs_in_use - 1 ∧
      q.m_read_jobs = p.m_read_jobs - (if (p.job j).action = .read then 1 else 0) ∧
      q.m_write_jobs = p.m_write_jobs - (if (p.job j).action = .write then 1 else 0) ∧
      (∀ k, (q.job k).action = (p.job k).action) ∧
      (∀ k, k ≠ j → q.job k = p.job k) := by
  cases ha : (p.job j).action with
  | read =>
    refine ⟨_, by simp only [free_job, hu]; rfl, ?_⟩
    simp [ha]
    refine ⟨fun k => ?_, fun k hk => by simp [Function.update_noteq hk]⟩
    by_cases hk : k = j
    · subst hk; simp [ha]
    · simp [Function.update_noteq hk]
  | write =>
    refine ⟨_, by simp only [free_job, hu]; rfl, ?_⟩
    simp [ha]
    refine ⟨fun k => ?_, fun k hk => by simp [Function.update_noteq hk]⟩
    by_cases hk : k = j
    · subst hk; simp [ha]
    · simp [Function.update_noteq hk]
  | other n =>
    refine ⟨_, by simp only [free_job, hu]; rfl, ?_⟩
    simp [ha]
    refine ⟨fun k => ?_, fun k hk => by simp [Function.update_noteq hk]⟩
    by_cases hk : k = j
    · subst hk; simp [ha]
    · simp [Function.update_noteq hk]

/-- Freeing distinct in-use jobs one by one returns and lowers the counters by
the length of the list and by its numbers of read and write jobs. -/
theorem free_job_each_counters (l : List Nat) :
    ∀ p : disk_job_pool, l.Nodup → (∀ x ∈ l, (p.job x).in_use = true) →
      ∃ q, p.free_job_each l = .ok q ∧
        q.m_jobs_in_use = p.m_jobs_in_use - l.length ∧
        q.m_read_jobs = p.m_read_jobs - l.countP (fun x => (p.job x).action = .read) ∧
        q.m_write_jobs = p.m_write_jobs - l.countP (fun x => (p.job x).action = .write) := by
  induction l with
  | nil =>
    intro p _ _
    exact ⟨p, rfl, by simp, by simp, by simp⟩
  | cons x rest ih =>
    intro p hnd hall
    obtain ⟨hx, hnd2⟩ := List.nodup_cons.mp hnd
    obtain ⟨q1, hq1, h1, h2, h3, hact, hsame⟩ :=
      free_job_returns p x (hall x (List.mem_cons_self _ _))
    obtain ⟨q, hq, h4, h5, h6⟩ := ih q1 hnd2 (by
      intro y hy
      have hyx : y ≠ x := fun e => hx (e ▸ hy)
      rw [hsame y hyx]
      exact hall y (List.mem_cons_of_mem _ hy))
    have hr : rest.countP (fun y => decide ((q1.job y).action = .read)) =
        rest.countP (fun y => decide ((p.job y).action = .read)) := by
      apply List.countP_congr
      intro y _
      simp [hact y]
    have hw : rest.countP (fun y => decide ((q1.job y).action = .write)) =
        rest.countP (fun y => decide ((p.job y).action = .write)) := by
      apply List.countP_congr
      intro y _
      simp [hact y]
    refine ⟨q, by simp [free_job_each, hq1, hq], ?_, ?_, ?_⟩
    · rw [h4, h1]; simp; ring
    · rw [h5, h2, hr, List.countP_cons]
      by_cases ha : (p.job x).action = .read
      · simp [ha]; ring
      · simp [ha]
    · rw [h6, h3, hw, List.countP_cons]
      by_cases ha : (p.job x).action = .write
      · simp [ha]; ring
      · simp [ha]

/-- The counters after `free_jobs` on any batch. -/
theorem free_jobs_counters (p : disk_job_pool) (j : List Nat) :
    (p.free_jobs j).m_jobs_in_use = p.m_jobs_in_use - j.length ∧
    (p.free_jobs j).m_read_jobs =
      p.m_read_jobs - j.countP (fun x => (p.job x).action = .read) ∧
    (p.free_jobs j).m_write_jobs =
      p.m_write_jobs - j.countP (fun x => (p.job x).action = .write) := by
  cases j with
  | nil => simp [free_jobs]
  | cons x rest => simp [free_jobs, count_jobs_eq]

/-- C24: for a batch `js` of distinct jobs marked in use, `free_jobs(js)`
leaves `m_jobs_in_use`, `m_read_jobs` and `m_write_jobs` with the values
reached by calling `free_job` on each job one after another, in any order
`order` (a permutation of the batch); each of these calls returns. -/
theorem C24_free_jobs_matches_free_job (p : disk_job_pool) (js order : List Nat)
    (hnd : js.Nodup) (hall : ∀ x ∈ js, (p.job x).in_use = true)
    (hperm : order.Perm js) :
    ∃ q, p.free_job_each order = .ok q ∧
      q.m_jobs_in_use = (p.free_jobs js).m_jobs_in_use ∧
      q.m_read_jobs = (p.free_jobs js).m_read_jobs ∧
      q.m_write_jobs = (p.free_jobs js).m_write_jobs := by
  obtain ⟨q, hq, h1, h2, h3⟩ := free_job_each_counters order p
    (hperm.nodup_iff.mpr hnd) (fun x hx => hall x (hperm.mem_iff.mp hx))
  obtain ⟨g1, g2, g3⟩ := free_jobs_counters p js
  refine ⟨q, hq, ?_, ?_, ?_⟩
  · rw [h1, g1, hperm.length_eq]
  · rw [h2, g2, hperm.countP_eq]
  · rw [h3, g3, hperm.countP_eq]

theorem C24_witness :
    ∃ q, three_in_use.free_job_each [5, 3, 4] = .ok q ∧
      q.m_jobs_in_use = (three_in_use.free_jobs [3, 4, 5]).m_jobs_in_use ∧
      q.m_read_jobs = (three_in_use.free_jobs [3, 4, 5]).m_read_jobs ∧
      q.m_write_jobs = (three_in_use.free_jobs [3, 4, 5]).m_write_jobs :=
  C24_free_jobs_matches_free_job three_in_use [3, 4, 5] [5, 3, 4] (by decide) (by decide)
    (by decide)

end disk_job_pool

namespace ip_voter

namespace external_ip_t

theorem lt_iff (a b : external_ip_t) :
    lt a b = true ↔
      (a.num_votes > b.num_votes ∨
        (a.num_votes = b.num_votes ∧ a.sources % 256 > b.sources % 256)) := by
  unfold lt
  by_cases h1 : a.num_votes > b.num_votes
  · simp [h1]
  · by_cases h2 : a.num_votes < b.num_votes
    · simp [h1, h2]
      omega
    · have h3 : a.num_votes = b.num_votes := by omega
      simp [h3]

theorem lt_false_iff (a b : external_ip_t) :
    lt a b = false ↔
      ¬ (a.num_votes > b.num_votes ∨
        (a.num_votes = b.num_votes ∧ a.sources % 256 > b.sources % 256)) := by
  rw [← lt_iff, Bool.not_eq_true]

/-- C25: `external_ip_t::operator<` sorts descending: `a < b` holds iff `a`
has more votes than `b`, or as many votes and a greater source bitmask as an
8-bit unsigned value. The relation is a strict weak ordering: irreflexive,
asymmetric, transitive, and with transitive incomparability. -/
theorem C25_operator_lt_strict_weak (a b c : external_ip_t) :
    (lt a b = true ↔
      (a.num_votes > b.num_votes ∨
        (a.num_votes = b.num_votes ∧ a.sources % 256 > b.sources % 256))) ∧
    lt a a = false ∧
    (lt a b = true → lt b a = false) ∧
    (lt a b = true → lt b c = true → lt a c = true) ∧
    (lt a b = false ∧ lt b a = false → lt b c = false ∧ lt c b = false →
      lt a c = false ∧ lt c a = false) := by
  refine ⟨lt_iff a b, ?_, ?_, ?_, ?_⟩
  · rw [lt_false_iff]; omega
  · rw [lt_iff, lt_false_iff]; omega
  · rw [lt_iff, lt_iff, lt_iff]; omega
  · rw [lt_false_iff, lt_false_iff, lt_false_iff, lt_false_iff, lt_false_iff, lt_false_iff]
    omega

theorem C25_witness :
    lt ⟨[], 1, 3, 5⟩ ⟨[], 2, 7, 4⟩ = true ∧
    lt ⟨[], 1, 259, 5⟩ ⟨[], 2, 2, 5⟩ = true ∧
    lt ⟨[], 2, 7, 4⟩ ⟨[], 1, 3, 5⟩ = false ∧
    (lt ⟨[], 1, 3, 5⟩ ⟨[], 2, 7, 4⟩ = true → lt ⟨[], 2, 7, 4⟩ ⟨[], 3, 9, 2⟩ = true →
      lt ⟨[], 1, 3, 5⟩ ⟨[], 3, 9, 2⟩ = true) :=
  ⟨by decide, by decide,
    (C25_operator_lt_strict_weak ⟨[], 1, 3, 5⟩ ⟨[], 2, 7, 4⟩ ⟨[], 3, 9, 2⟩).2.2.1 (by decide),
    (C25_operator_lt_strict_weak ⟨[], 1, 3, 5⟩ ⟨[], 2, 7, 4⟩ ⟨[], 3, 9, 2⟩).2.2.2.1⟩

end external_ip_t

end ip_voter

end libtorrent
